import Mathlib

/-!
# A connection pool backed by a bounded FIFO queue

Shallow embedding of the Go package `pool`: the queue of `queue.go`, the error
values of `errors.go` and the reusable connection of `conn.go`.

Modelling conventions.

* `net.Conn` values are elements of an arbitrary type `C`; a Go interface value
  that may be nil is an `Option C`.  Error values produced outside the package
  (by the constructor or by `net.Conn.Close`) are elements of an arbitrary type
  `E`; a Go `error` that may be nil is an `Option`.
* The outside world is an arbitrary state `σ`.  The constructor and
  `net.Conn.Close` are deterministic transformers of that state, so the result
  of a call may depend on everything that happened before it.
* Every call to the constructor and every call to `net.Conn.Close` is appended
  to an event log carried by the `World`, so that "called exactly once" is a
  statement about the log.
* A buffered channel `chan net.Conn` is its capacity and its FIFO contents; a
  nil channel is `none`.  The channel's own "closed" mark is not stored: the
  only `close(ch)` of the package is in `QueuePool.Close`, which discards the
  channel before it releases the exclusive lock.
* Calls are sequential; the `sync.RWMutex` fields are not represented.
* A `*QueuePool` held by a wrapper is nil or an address; the pools live in a
  memory `Nat → QueuePool`, read and updated through that address.
* A call either returns, blocks forever (send on a full channel with no
  receiver), or panics (close of a nil channel, method call on a nil
  interface, call of a nil function).  A panic ends the run.
* Go's `int` parameters are `Int`; lengths and capacities are `Nat`.
* `make` panics when asked for a capacity above what the platform accepts; the
  two bounds that `NewQueuePool` meets are parameters, the `Limits`.
-/

namespace Pool

/-- How a call of a Go function ends. -/
inductive Outcome (α : Type) where
  | returns (a : α)
  | blocks
  | panics
deriving DecidableEq

/-- Sequencing: the rest of the code runs only when the call returns. -/
def Outcome.bind {α β : Type} (x : Outcome α) (f : α → Outcome β) : Outcome β :=
  match x with
  | Outcome.returns a => f a
  | Outcome.blocks => Outcome.blocks
  | Outcome.panics => Outcome.panics

/-- What the package does to the outside world. -/
inductive Event (C : Type) where
  | construct
  | close (c : C)
deriving DecidableEq

/-- The outside world: its own state and the log of calls made into it. -/
structure World (σ C : Type) where
  ext : σ
  log : List (Event C)
deriving DecidableEq

/-- Source: `type Constructor func() (net.Conn, error)`. -/
abbrev Constructor (σ C E : Type) := σ → (Option C × Option E) × σ

/-- The method `Close() error` of `net.Conn`. -/
abbrev ConnClose (σ C E : Type) := C → σ → Option E × σ

/-- Source: `type ErrConnQueueClose []error`. -/
abbrev ErrConnQueueClose (ε : Type) := List (Option ε)

/-- Source: `func (errConn *ErrConnQueueClose) Len() int`. -/
def ErrConnQueueClose.Len {ε : Type} (errConn : ErrConnQueueClose ε) : Nat :=
  List.length errConn

/-- Source: `func (errConn *ErrConnQueueClose) Collect(err error)`. -/
def ErrConnQueueClose.Collect {ε : Type} (errConn : ErrConnQueueClose ε) (err : Option ε) :
    ErrConnQueueClose ε :=
  match err with
  | none => errConn
  | some e => errConn ++ [some e]

/-- The non-nil `error` values that the package hands to its callers: the five
sentinels of `errors.go`, an error of the outside world passed through, and a
pointer to an `ErrConnQueueClose`. -/
inductive Error (E : Type) where
  | ErrBadNilConstructor
  | ErrPoolConnClosed
  | ErrPoolClosingFail
  | ErrNilConnEnqueued
  | ErrCreateConnFail
  | foreign (e : E)
  | connQueueClose (errs : ErrConnQueueClose E)
deriving DecidableEq

/-- A non-nil buffered `chan net.Conn`: capacity and contents, oldest first. -/
structure Chan (C : Type) where
  cap : Nat
  buf : List (Option C)
deriving DecidableEq

/-- Source: `type QueuePool struct`. -/
structure QueuePool (σ C E : Type) where
  connsQueue : Option (Chan C)
  constructor : Option (Constructor σ C E)

/-- The capacities `make` accepts on the platform: the largest one for a
`chan net.Conn` and the largest one for a `[]error`.  Asked for more, `make`
panics (`makechan: size out of range`, `makeslice: cap out of range`). -/
structure Limits where
  maxChanCap : Nat
  maxSliceCap : Nat
deriving DecidableEq

/-- Source: `DefaultInitConn = 30`. -/
def DefaultInitConn : Int := 30

/-- Source: `DefaultMaxConn = 100`. -/
def DefaultMaxConn : Int := 100

section

variable {σ C E : Type}

/-- One call `constructor()`. -/
def callConstructor (k : Constructor σ C E) (w : World σ C) :
    (Option C × Option E) × World σ C :=
  ((k w.ext).1, ⟨(k w.ext).2, w.log ++ [Event.construct]⟩)

/-- One call `conn.Close()` on a non-nil connection. -/
def callClose (connClose : ConnClose σ C E) (c : C) (w : World σ C) :
    Option E × World σ C :=
  ((connClose c w.ext).1, ⟨(connClose c w.ext).2, w.log ++ [Event.close c]⟩)

/-- The loop `for i := 0; i < initConn; i++` of `NewQueuePool`, with `n`
iterations left.  The send `queuePool.connsQueue <- conn` is a plain send: it
blocks when the channel is full. -/
def initLoop (k : Constructor σ C E) :
    Nat → Chan C → ErrConnQueueClose E → World σ C →
      Outcome (Chan C × ErrConnQueueClose E × World σ C)
  | 0, ch, errorLists, w => Outcome.returns (ch, errorLists, w)
  | n + 1, ch, errorLists, w =>
    match (callConstructor k w).1.2 with
    | some err =>
      initLoop k n ch (ErrConnQueueClose.Collect errorLists (some err)) (callConstructor k w).2
    | none =>
      if ch.buf.length < ch.cap then
        initLoop k n ⟨ch.cap, ch.buf ++ [(callConstructor k w).1.1]⟩ errorLists
          (callConstructor k w).2
      else Outcome.blocks

/-- Source: `func NewQueuePool(initConn, maxConns int, constructor Constructor)
(*QueuePool, error)`.  After the nil check come `make(chan net.Conn, maxConns)`
and `make(ErrConnQueueClose, 0, initConn)`, each of which panics above its
limit, then the loop. -/
def NewQueuePool (lim : Limits) (initConn maxConns : Int)
    (constructor : Option (Constructor σ C E)) (w : World σ C) :
    Outcome ((Option (QueuePool σ C E) × Option (Error E)) × World σ C) :=
  let initConn := if initConn < 0 then DefaultInitConn else initConn
  let maxConns := if maxConns < 1 then DefaultMaxConn else maxConns
  match constructor with
  | none => Outcome.returns ((none, some Error.ErrBadNilConstructor), w)
  | some k =>
    if lim.maxChanCap < maxConns.toNat then Outcome.panics
    else if lim.maxSliceCap < initConn.toNat then Outcome.panics
    else
      (initLoop k initConn.toNat ⟨maxConns.toNat, []⟩ [] w).bind fun r =>
        if ErrConnQueueClose.Len r.2.1 > 0 then
          Outcome.returns ((some ⟨some r.1, some k⟩, some (Error.connQueueClose r.2.1)), r.2.2)
        else
          Outcome.returns ((some ⟨some r.1, some k⟩, none), r.2.2)

/-- Source: `func (qp *QueuePool) Get() (net.Conn, error)`.  The result is the
pair returned, the pool afterwards and the world afterwards. -/
def QueuePool.Get (qp : QueuePool σ C E) (w : World σ C) :
    Outcome ((Option C × Option (Error E)) × QueuePool σ C E × World σ C) :=
  match qp.connsQueue with
  | none => Outcome.returns ((none, some Error.ErrPoolConnClosed), qp, w)
  | some ch =>
    match ch.buf with
    | conn :: rest =>
      match conn with
      | none =>
        Outcome.returns ((none, some Error.ErrPoolConnClosed),
          ⟨some ⟨ch.cap, rest⟩, qp.constructor⟩, w)
      | some c =>
        Outcome.returns ((some c, none), ⟨some ⟨ch.cap, rest⟩, qp.constructor⟩, w)
    | [] =>
      match qp.constructor with
      | none => Outcome.panics
      | some k =>
        match (callConstructor k w).1.2 with
        | some _ =>
          Outcome.returns ((none, some Error.ErrCreateConnFail), qp, (callConstructor k w).2)
        | none =>
          Outcome.returns (((callConstructor k w).1.1, none), qp, (callConstructor k w).2)

/-- Source: `func (qp *QueuePool) Put(conn net.Conn) error`.  The result is the
error returned, the pool afterwards and the world afterwards. -/
def QueuePool.Put (connClose : ConnClose σ C E) (qp : QueuePool σ C E) (conn : Option C)
    (w : World σ C) : Option (Error E) × QueuePool σ C E × World σ C :=
  match conn with
  | none => (some Error.ErrNilConnEnqueued, qp, w)
  | some c =>
    match qp.connsQueue with
    | none => (Option.map Error.foreign (callClose connClose c w).1, qp, (callClose connClose c w).2)
    | some ch =>
      if ch.buf.length < ch.cap then
        (none, ⟨some ⟨ch.cap, ch.buf ++ [some c]⟩, qp.constructor⟩, w)
      else
        (Option.map Error.foreign (callClose connClose c w).1, qp, (callClose connClose c w).2)

/-- The loop `for conn := range qp.connsQueue` of `QueuePool.Close` over the
contents of the closed channel.  `conn.Close()` on a nil interface panics. -/
def drain (connClose : ConnClose σ C E) :
    List (Option C) → ErrConnQueueClose E → World σ C →
      Outcome (ErrConnQueueClose E × World σ C)
  | [], errorLists, w => Outcome.returns (errorLists, w)
  | none :: _, _, _ => Outcome.panics
  | some c :: rest, errorLists, w =>
    match (callClose connClose c w).1 with
    | some err =>
      drain connClose rest (ErrConnQueueClose.Collect errorLists (some err))
        (callClose connClose c w).2
    | none => drain connClose rest errorLists (callClose connClose c w).2

/-- Source: `func (qp *QueuePool) Close() error`.  `close(qp.connsQueue)` on a
nil channel panics.  The slice made first has the capacity `len(qp.connsQueue)`,
no more than the capacity of a channel that `make` accepted, for elements of
the same size, so that `make` is within its limit. -/
def QueuePool.Close (connClose : ConnClose σ C E) (qp : QueuePool σ C E) (w : World σ C) :
    Outcome (Option (Error E) × QueuePool σ C E × World σ C) :=
  match qp.connsQueue with
  | none => Outcome.panics
  | some ch =>
    (drain connClose ch.buf [] w).bind fun r =>
      if ErrConnQueueClose.Len r.1 > 0 then
        Outcome.returns (some (Error.connQueueClose r.1), ⟨none, qp.constructor⟩, r.2)
      else
        Outcome.returns (none, ⟨none, qp.constructor⟩, r.2)

/-- Source: `func (qp *QueuePool) Len() int`; `len` of a nil channel is 0. -/
def QueuePool.Len (qp : QueuePool σ C E) : Nat :=
  match qp.connsQueue with
  | none => 0
  | some ch => ch.buf.length

end

/-! ## Sequences of calls -/

section

variable {σ C E : Type}

/-- One call on a pool. -/
inductive Op (C : Type) where
  | get
  | put (conn : Option C)
  | close
deriving DecidableEq

/-- What one call on a pool returned. -/
inductive Ret (C E : Type) where
  | got (conn : Option C) (err : Option (Error E))
  | putRet (err : Option (Error E))
  | closeRet (err : Option (Error E))
deriving DecidableEq

/-- Performs one call: what it returned, the pool and the world afterwards. -/
def step (connClose : ConnClose σ C E) (op : Op C) (qp : QueuePool σ C E) (w : World σ C) :
    Outcome (Ret C E × QueuePool σ C E × World σ C) :=
  match op with
  | Op.get => (QueuePool.Get qp w).bind fun r => Outcome.returns (Ret.got r.1.1 r.1.2, r.2)
  | Op.put conn =>
    Outcome.returns (Ret.putRet (QueuePool.Put connClose qp conn w).1,
      (QueuePool.Put connClose qp conn w).2)
  | Op.close =>
    (QueuePool.Close connClose qp w).bind fun r => Outcome.returns (Ret.closeRet r.1, r.2)

/-- Performs the calls of a list one after the other; a call that blocks or
panics ends the run.  The result lists what each call returned. -/
def run (connClose : ConnClose σ C E) :
    List (Op C) → QueuePool σ C E → World σ C →
      Outcome (List (Ret C E) × QueuePool σ C E × World σ C)
  | [], qp, w => Outcome.returns ([], qp, w)
  | op :: ops, qp, w =>
    (step connClose op qp w).bind fun a =>
      (run connClose ops a.2.1 a.2.2).bind fun b => Outcome.returns (a.1 :: b.1, b.2)

end

/-! ## Reference semantics of repeated calls into the outside world -/

section

variable {σ C E : Type}

/-- The results of `n` successive calls of the constructor, the first one made
in external state `s`, in call order. -/
def constructorResults (k : Constructor σ C E) : Nat → σ → List (Option C × Option E)
  | 0, _ => []
  | n + 1, s => (k s).1 :: constructorResults k n (k s).2

/-- The external state after `n` successive calls of the constructor. -/
def constructorState (k : Constructor σ C E) : Nat → σ → σ
  | 0, s => s
  | n + 1, s => constructorState k n (k s).2

/-- The connections of the calls that returned a nil error, in call order. -/
def constructed (rs : List (Option C × Option E)) : List (Option C) :=
  List.map Prod.fst (List.filter (fun r => r.2.isNone) rs)

/-- The errors of the calls that returned a non-nil error, in call order. -/
def failures (rs : List (Option C × Option E)) : List E :=
  List.filterMap Prod.snd rs

/-- The aggregate error built from a list of collected errors: nil when there
is none, otherwise a pointer to the list. -/
def aggregate (errs : List E) : Option (Error E) :=
  if errs.isEmpty then none else some (Error.connQueueClose (List.map some errs))

/-- The results of closing the connections of a list one after the other, the
first one in external state `s`, in call order. -/
def closeResults (connClose : ConnClose σ C E) : List C → σ → List (Option E)
  | [], _ => []
  | c :: cs, s => (connClose c s).1 :: closeResults connClose cs (connClose c s).2

/-- The external state after closing the connections of a list one after the
other. -/
def closeState (connClose : ConnClose σ C E) : List C → σ → σ
  | [], s => s
  | c :: cs, s => closeState connClose cs (connClose c s).2

/-- The value `initConn` has after the first `if` of `NewQueuePool`. -/
def effectiveInitConn (initConn : Int) : Int :=
  if initConn < 0 then 30 else initConn

/-- The value `maxConns` has after the second `if` of `NewQueuePool`. -/
def effectiveMaxConns (maxConns : Int) : Int :=
  if maxConns < 1 then 100 else maxConns

/-- The non-nil connections yielded by `n` successive calls of the constructor,
the first one made in external state `s`, in call order. -/
def acquired (k : Constructor σ C E) (n : Nat) (s : σ) : List C :=
  List.filterMap Prod.fst (constructorResults k n s)

/-- The capacity invariant: an open pool has a channel of capacity `m` holding
at most `m` connections. -/
def WithinCapacity (m : Nat) (qp : QueuePool σ C E) : Prop :=
  ∀ ch, qp.connsQueue = some ch → ch.cap = m ∧ ch.buf.length ≤ m

end

/-- Limits for the examples: capacities up to 2^44, the order of magnitude on a
64-bit platform, where an interface value takes 16 bytes and one allocation at
most 2^48 bytes. -/
def limits64 : Limits := ⟨17592186044416, 17592186044416⟩

/-- A constructor over a call counter: the call made in state `i` yields
connection `i`, except the third call (state 2), which fails with error 7. -/
def thirdCallFails : Constructor Nat Nat Nat :=
  fun i => (if i = 2 then (none, some 7) else (some i, none), i + 1)

/-- A constructor over a call counter that never fails: the call made in
state `i` yields connection `i`. -/
def freshConn : Constructor Nat Nat Nat :=
  fun i => ((some i, none), i + 1)

/-- A `Close` method under which closing connection `c` fails, with error
`c`, exactly when `c` is odd. -/
def oddCloseFails : ConnClose Nat Nat Nat :=
  fun c s => (if c % 2 = 1 then some c else none, s)

/-! ## The reusable connection of `conn.go` -/

/-- Source: `type ReusableConn struct`.  The embedded `net.Conn` may be nil;
`connPool` is a `*QueuePool`, nil or the address of a pool. -/
structure ReusableConn (C : Type) where
  Conn : Option C
  connPool : Option Nat
  usable : Bool
deriving DecidableEq

/-- A call of `SetUsable` or of `SetUnusable`. -/
inductive Toggle where
  | setUsable
  | setUnusable
deriving DecidableEq

section

variable {σ C E : Type}

/-- Source: `func (rc *ReusableConn) SetUsable()`. -/
def ReusableConn.SetUsable (rc : ReusableConn C) : ReusableConn C :=
  ⟨rc.Conn, rc.connPool, true⟩

/-- Source: `func (rc *ReusableConn) SetUnusable()`. -/
def ReusableConn.SetUnusable (rc : ReusableConn C) : ReusableConn C :=
  ⟨rc.Conn, rc.connPool, false⟩

/-- Source: `func NewReusableConn(conn net.Conn, connPool *QueuePool)
*ReusableConn`; the field `usable` is left at its zero value. -/
def NewReusableConn (conn : Option C) (connPool : Option Nat) : ReusableConn C :=
  ⟨conn, connPool, false⟩

/-- Modelled from the spec: the unexported method `put` of `QueuePool`, which
`ReusableConn.Close` calls and no source file defines.  The specification says
that `Close` "delegates to the pool's Release", so `put` is `Put`. -/
def QueuePool.put (connClose : ConnClose σ C E) (qp : QueuePool σ C E) (conn : Option C)
    (w : World σ C) : Option (Error E) × QueuePool σ C E × World σ C :=
  QueuePool.Put connClose qp conn w

/-- Source: `func (rc *ReusableConn) Close() error`.  `pools` is the memory
holding the pools, by address; the pool `rc.connPool` points to is read from it
and written back.  With a nil `rc.connPool` the release of a non-nil connection
dereferences a nil pointer. -/
def ReusableConn.Close (connClose : ConnClose σ C E) (rc : ReusableConn C)
    (pools : Nat → QueuePool σ C E) (w : World σ C) :
    Outcome (Option (Error E) × (Nat → QueuePool σ C E) × World σ C) :=
  if !rc.usable || rc.Conn.isNone then
    match rc.Conn with
    | some c =>
      Outcome.returns (Option.map Error.foreign (callClose connClose c w).1, pools,
        (callClose connClose c w).2)
    | none => Outcome.returns (none, pools, w)
  else
    match rc.connPool with
    | none => Outcome.panics
    | some a =>
      Outcome.returns ((QueuePool.put connClose (pools a) rc.Conn w).1,
        Function.update pools a (QueuePool.put connClose (pools a) rc.Conn w).2.1,
        (QueuePool.put connClose (pools a) rc.Conn w).2.2)

/-- Performs one call of `SetUsable` or `SetUnusable`. -/
def applyToggle (rc : ReusableConn C) : Toggle → ReusableConn C
  | Toggle.setUsable => ReusableConn.SetUsable rc
  | Toggle.setUnusable => ReusableConn.SetUnusable rc

/-- Performs the calls of a list one after the other. -/
def applyToggles (ts : List Toggle) (rc : ReusableConn C) : ReusableConn C :=
  List.foldl applyToggle rc ts

end

/-! ## The report of `errors.go` -/

/-- Source: `func (errConn *ErrConnQueueClose) Error() string`; `message` is the
method `Error()` of the stored errors. -/
def ErrConnQueueClose.Error {ε : Type} (message : ε → String) (errConn : ErrConnQueueClose ε) :
    String :=
  List.foldl
    (fun msg err =>
      match err with
      | none => msg
      | some e => msg ++ ("\t- error: " ++ message e ++ "\n"))
    "errors occured during QueuePool.Close() :\n" errConn

/-- The concatenation of the lines of a list, in order. -/
def concatLines : List String → String
  | [] => ""
  | l :: ls => l ++ concatLines ls

/-- The memory in which every address holds the same pool. -/
def onePool (qp : QueuePool Nat Nat Nat) : Nat → QueuePool Nat Nat Nat :=
  fun _ => qp

/-- The invariant that no buffered connection of an open pool is nil. -/
def NoNilBuffered {σ C E : Type} (qp : QueuePool σ C E) : Prop :=
  ∀ ch, qp.connsQueue = some ch → ∀ x ∈ ch.buf, x ≠ none

/-- What `Get` returns for an entry it dequeues: the connection, or
`ErrPoolConnClosed` for a nil entry. -/
def gotOf {C E : Type} (x : Option C) : Ret C E :=
  match x with
  | some c => Ret.got (some c) none
  | none => Ret.got none (some Error.ErrPoolConnClosed)

/-! ## Lemmas -/

section

variable {σ C E : Type}

@[simp]
theorem Outcome.bind_returns {α β : Type} (a : α) (f : α → Outcome β) :
    (Outcome.returns a).bind f = f a := rfl

theorem Outcome.bind_eq_returns {α β : Type} (x : Outcome α) (f : α → Outcome β) (b : β) :
    x.bind f = Outcome.returns b ↔ ∃ a, x = Outcome.returns a ∧ f a = Outcome.returns b := by
  cases x with
  | returns a => simp [Outcome.bind]
  | blocks => simp [Outcome.bind]
  | panics => simp [Outcome.bind]

theorem constructorResults_length (k : Constructor σ C E) (n : Nat) (s : σ) :
    (constructorResults k n s).length = n := by
  induction n generalizing s with
  | zero => rfl
  | succ n ih => simp [constructorResults, ih]

theorem constructed_length_add (rs : List (Option C × Option E)) :
    (constructed rs).length + (failures rs).length = rs.length := by
  induction rs with
  | nil => rfl
  | cons r rs ih =>
    obtain ⟨c, e⟩ := r
    cases e with
    | none =>
      simp [constructed, failures] at ih ⊢
      omega
    | some e =>
      simp [constructed, failures] at ih ⊢
      omega

theorem initLoop_returns (k : Constructor σ C E) (n : Nat) (ch : Chan C)
    (errorLists : ErrConnQueueClose E) (w : World σ C) (h : ch.buf.length + n ≤ ch.cap) :
    initLoop k n ch errorLists w =
      Outcome.returns
        (⟨ch.cap, ch.buf ++ constructed (constructorResults k n w.ext)⟩,
         errorLists ++ List.map some (failures (constructorResults k n w.ext)),
         ⟨constructorState k n w.ext, w.log ++ List.replicate n Event.construct⟩) := by
  induction n generalizing ch errorLists w with
  | zero => simp [initLoop, constructorResults, constructorState, constructed, failures]
  | succ n ih =>
    rw [initLoop]
    rcases hk : k w.ext with ⟨⟨c, e⟩, s'⟩
    cases e with
    | some e =>
      simp only [callConstructor, hk]
      rw [ih _ _ _ (by omega)]
      simp [constructorResults, constructorState, constructed, failures, hk,
        ErrConnQueueClose.Collect, List.replicate_succ]
    | none =>
      simp only [callConstructor, hk]
      rw [if_pos (by omega)]
      rw [ih _ _ _ (by simp; omega)]
      simp [constructorResults, constructorState, constructed, failures, hk,
        List.replicate_succ]

theorem aggregate_nil : aggregate ([] : List E) = none := rfl

theorem aggregate_ne_nil (errs : List E) (h : errs ≠ []) :
    aggregate errs = some (Error.connQueueClose (List.map some errs)) := by
  cases errs with
  | nil => exact absurd rfl h
  | cons e es => rfl

theorem NewQueuePool_of_initLoop (lim : Limits) (initConn maxConns : Int)
    (k : Constructor σ C E) (w : World σ C) (m n : Nat)
    (hm : (if maxConns < 1 then DefaultMaxConn else maxConns).toNat = m)
    (hn : (if initConn < 0 then DefaultInitConn else initConn).toNat = n)
    (hle : n ≤ m) (hchan : m ≤ lim.maxChanCap) (hslice : n ≤ lim.maxSliceCap) :
    NewQueuePool lim initConn maxConns (some k) w =
      Outcome.returns
        ((some ⟨some ⟨m, constructed (constructorResults k n w.ext)⟩, some k⟩,
          aggregate (failures (constructorResults k n w.ext))),
         ⟨constructorState k n w.ext, w.log ++ List.replicate n Event.construct⟩) := by
  unfold NewQueuePool
  simp only [hm, hn]
  rw [if_neg (by omega), if_neg (by omega)]
  rw [initLoop_returns k n ⟨m, []⟩ [] w (by simpa using hle)]
  cases hf : failures (constructorResults k n w.ext) with
  | nil => simp [ErrConnQueueClose.Len, aggregate]
  | cons e es => simp [ErrConnQueueClose.Len, aggregate]

theorem failures_eq_nil (rs : List (Option C × Option E)) (h : ∀ r ∈ rs, r.2 = none) :
    failures rs = [] := by
  induction rs with
  | nil => rfl
  | cons r rs ih =>
    have h1 : r.2 = none := h r (List.mem_cons_self _ _)
    have h2 : failures rs = [] := ih (fun x hx => h x (List.mem_cons_of_mem _ hx))
    simpa [failures, h1] using h2

theorem constructorResults_mem (k : Constructor σ C E) (P : Option C × Option E → Prop)
    (hk : ∀ s, P (k s).1) (n : Nat) (s : σ) : ∀ r ∈ constructorResults k n s, P r := by
  induction n generalizing s with
  | zero => simp [constructorResults]
  | succ n ih =>
    intro r hr
    simp only [constructorResults, List.mem_cons] at hr
    rcases hr with rfl | hr
    · exact hk s
    · exact ih _ r hr

theorem run_nil (connClose : ConnClose σ C E) (qp : QueuePool σ C E) (w : World σ C) :
    run connClose [] qp w = Outcome.returns ([], qp, w) := rfl

theorem run_cons_of_step (connClose : ConnClose σ C E) (op : Op C) (ops : List (Op C))
    (qp qp1 qp2 : QueuePool σ C E) (w w1 w2 : World σ C) (r : Ret C E) (rs : List (Ret C E))
    (h1 : step connClose op qp w = Outcome.returns (r, qp1, w1))
    (h2 : run connClose ops qp1 w1 = Outcome.returns (rs, qp2, w2)) :
    run connClose (op :: ops) qp w = Outcome.returns (r :: rs, qp2, w2) := by
  simp [run, h1, h2]

theorem run_cons_inv (connClose : ConnClose σ C E) (op : Op C) (ops : List (Op C))
    (qp qp2 : QueuePool σ C E) (w w2 : World σ C) (rs : List (Ret C E))
    (h : run connClose (op :: ops) qp w = Outcome.returns (rs, qp2, w2)) :
    ∃ r rs1 qp1 w1, step connClose op qp w = Outcome.returns (r, qp1, w1)
      ∧ run connClose ops qp1 w1 = Outcome.returns (rs1, qp2, w2) ∧ rs = r :: rs1 := by
  simp only [run, Outcome.bind_eq_returns] at h
  obtain ⟨⟨r, qp1, w1⟩, hs, ⟨rs1, qp2', w2'⟩, hr, heq⟩ := h
  simp only [Outcome.returns.injEq, Prod.mk.injEq] at heq
  obtain ⟨rfl, rfl, rfl⟩ := heq
  exact ⟨r, rs1, qp1, w1, hs, hr, rfl⟩

theorem run_append (connClose : ConnClose σ C E) (ops1 ops2 : List (Op C))
    (qp qp1 qp2 : QueuePool σ C E) (w w1 w2 : World σ C) (rs1 rs2 : List (Ret C E))
    (h1 : run connClose ops1 qp w = Outcome.returns (rs1, qp1, w1))
    (h2 : run connClose ops2 qp1 w1 = Outcome.returns (rs2, qp2, w2)) :
    run connClose (ops1 ++ ops2) qp w = Outcome.returns (rs1 ++ rs2, qp2, w2) := by
  induction ops1 generalizing qp w rs1 with
  | nil =>
    simp only [run, Outcome.returns.injEq, Prod.mk.injEq] at h1
    obtain ⟨rfl, rfl, rfl⟩ := h1
    simpa using h2
  | cons op ops ih =>
    obtain ⟨r, rs', qp', w', hs, hr, rfl⟩ := run_cons_inv connClose op ops qp qp1 w w1 rs1 h1
    rw [List.cons_append]
    exact run_cons_of_step connClose op _ qp qp' qp2 w w' w2 r _ hs (ih qp' w' rs' hr)

theorem Put_room (connClose : ConnClose σ C E) (c : C) (cap : Nat) (buf : List (Option C))
    (ko : Option (Constructor σ C E)) (w : World σ C) (h : buf.length < cap) :
    QueuePool.Put connClose ⟨some ⟨cap, buf⟩, ko⟩ (some c) w =
      (none, ⟨some ⟨cap, buf ++ [some c]⟩, ko⟩, w) := by
  simp [QueuePool.Put, h]

theorem Put_full (connClose : ConnClose σ C E) (c : C) (cap : Nat) (buf : List (Option C))
    (ko : Option (Constructor σ C E)) (w : World σ C) (h : cap ≤ buf.length) :
    QueuePool.Put connClose ⟨some ⟨cap, buf⟩, ko⟩ (some c) w =
      (Option.map Error.foreign (connClose c w.ext).1, ⟨some ⟨cap, buf⟩, ko⟩,
        ⟨(connClose c w.ext).2, w.log ++ [Event.close c]⟩) := by
  simp [QueuePool.Put, callClose, Nat.not_lt.mpr h]

theorem Put_closed (connClose : ConnClose σ C E) (c : C)
    (ko : Option (Constructor σ C E)) (w : World σ C) :
    QueuePool.Put connClose ⟨none, ko⟩ (some c) w =
      (Option.map Error.foreign (connClose c w.ext).1, ⟨none, ko⟩,
        ⟨(connClose c w.ext).2, w.log ++ [Event.close c]⟩) := by
  simp [QueuePool.Put, callClose]

theorem run_puts_room (connClose : ConnClose σ C E) (cs : List C) (cap : Nat)
    (buf : List (Option C)) (ko : Option (Constructor σ C E)) (w : World σ C)
    (h : buf.length + cs.length ≤ cap) :
    run connClose (List.map (fun c => Op.put (some c)) cs) ⟨some ⟨cap, buf⟩, ko⟩ w =
      Outcome.returns (List.replicate cs.length (Ret.putRet none),
        ⟨some ⟨cap, buf ++ List.map some cs⟩, ko⟩, w) := by
  induction cs generalizing buf with
  | nil => simp [run]
  | cons c cs ih =>
    simp only [List.length_cons] at h
    rw [List.map_cons]
    have hs : step connClose (Op.put (some c)) ⟨some ⟨cap, buf⟩, ko⟩ w =
        Outcome.returns (Ret.putRet none, ⟨some ⟨cap, buf ++ [some c]⟩, ko⟩, w) := by
      simp [step, Put_room connClose c cap buf ko w (by omega)]
    rw [run_cons_of_step connClose _ _ _ _ _ _ _ _ _ _ hs
      (ih (buf ++ [some c]) (by simp; omega))]
    simp [List.replicate_succ]

theorem run_gets_buffered (connClose : ConnClose σ C E) (cs : List C) (cap : Nat)
    (rest : List (Option C)) (ko : Option (Constructor σ C E)) (w : World σ C) :
    run connClose (List.replicate cs.length Op.get)
        ⟨some ⟨cap, List.map some cs ++ rest⟩, ko⟩ w =
      Outcome.returns (List.map (fun c => Ret.got (some c) none) cs,
        ⟨some ⟨cap, rest⟩, ko⟩, w) := by
  induction cs with
  | nil => simp [run]
  | cons c cs ih =>
    have hs : step connClose Op.get
        (⟨some ⟨cap, List.map some (c :: cs) ++ rest⟩, ko⟩ : QueuePool σ C E) w =
        Outcome.returns (Ret.got (some c) none,
          ⟨some ⟨cap, List.map some cs ++ rest⟩, ko⟩, w) := by
      simp [step, QueuePool.Get]
    rw [List.length_cons, List.replicate_succ,
      run_cons_of_step connClose _ _ _ _ _ _ _ _ _ _ hs ih]
    rfl

theorem initLoop_cap (k : Constructor σ C E) (n : Nat) (ch ch1 : Chan C)
    (errorLists errorLists1 : ErrConnQueueClose E) (w w1 : World σ C)
    (h : initLoop k n ch errorLists w = Outcome.returns (ch1, errorLists1, w1))
    (hch : ch.buf.length ≤ ch.cap) : ch1.cap = ch.cap ∧ ch1.buf.length ≤ ch.cap := by
  induction n generalizing ch errorLists w with
  | zero =>
    simp only [initLoop, Outcome.returns.injEq, Prod.mk.injEq] at h
    obtain ⟨rfl, -, -⟩ := h
    exact ⟨rfl, hch⟩
  | succ n ih =>
    rw [initLoop] at h
    split at h
    · exact ih _ _ _ h hch
    · split at h
      · rename_i hlt
        have := ih _ _ _ h (by simp; omega)
        simpa using this
      · simp at h

theorem NewQueuePool_inv (lim : Limits) (initConn maxConns : Int) (k : Constructor σ C E)
    (w w0 : World σ C) (qp : Option (QueuePool σ C E)) (err : Option (Error E))
    (h : NewQueuePool lim initConn maxConns (some k) w = Outcome.returns ((qp, err), w0)) :
    ∃ ch errorLists,
      initLoop k (if initConn < 0 then DefaultInitConn else initConn).toNat
          ⟨(if maxConns < 1 then DefaultMaxConn else maxConns).toNat, []⟩ [] w
        = Outcome.returns (ch, errorLists, w0)
      ∧ qp = some ⟨some ch, some k⟩
      ∧ err = (if ErrConnQueueClose.Len errorLists > 0
          then some (Error.connQueueClose errorLists) else none) := by
  unfold NewQueuePool at h
  simp only at h
  by_cases h1 : lim.maxChanCap < (if maxConns < 1 then DefaultMaxConn else maxConns).toNat
  · rw [if_pos h1] at h
    simp at h
  · rw [if_neg h1] at h
    by_cases h2 : lim.maxSliceCap < (if initConn < 0 then DefaultInitConn else initConn).toNat
    · rw [if_pos h2] at h
      simp at h
    · rw [if_neg h2, Outcome.bind_eq_returns] at h
      obtain ⟨⟨ch, errorLists, w1⟩, hloop, hret⟩ := h
      by_cases hl : ErrConnQueueClose.Len errorLists > 0
      · simp only [hl, if_true, Outcome.returns.injEq, Prod.mk.injEq] at hret
        obtain ⟨⟨rfl, rfl⟩, rfl⟩ := hret
        exact ⟨ch, errorLists, hloop, rfl, by simp [hl]⟩
      · simp only [hl, if_false, Outcome.returns.injEq, Prod.mk.injEq] at hret
        obtain ⟨⟨rfl, rfl⟩, rfl⟩ := hret
        exact ⟨ch, errorLists, hloop, rfl, by simp [hl]⟩

theorem NewQueuePool_withinCapacity (lim : Limits) (initConn maxConns : Int)
    (ko : Option (Constructor σ C E)) (w w0 : World σ C) (qp : QueuePool σ C E)
    (err : Option (Error E))
    (h : NewQueuePool lim initConn maxConns ko w = Outcome.returns ((some qp, err), w0)) :
    WithinCapacity (effectiveMaxConns maxConns).toNat qp := by
  cases ko with
  | none => simp [NewQueuePool] at h
  | some k =>
    obtain ⟨ch, errorLists, hloop, hq, -⟩ := NewQueuePool_inv lim initConn maxConns k w w0 _ _ h
    have hcap := initLoop_cap k _ _ _ _ _ _ _ hloop (by simp)
    have hqp : qp = ⟨some ch, some k⟩ := by simpa using hq
    subst hqp
    intro ch' hch'
    simp only [Option.some.injEq] at hch'
    subst hch'
    simpa [effectiveMaxConns, DefaultMaxConn] using hcap

theorem Get_pool (qp qp1 : QueuePool σ C E) (w w1 : World σ C)
    (r : Option C × Option (Error E))
    (h : QueuePool.Get qp w = Outcome.returns (r, qp1, w1)) :
    qp1 = qp ∨ ∃ ch conn rest, qp.connsQueue = some ch ∧ ch.buf = conn :: rest
      ∧ qp1 = ⟨some ⟨ch.cap, rest⟩, qp.constructor⟩ := by
  unfold QueuePool.Get at h
  split at h
  · simp only [Outcome.returns.injEq, Prod.mk.injEq] at h
    exact Or.inl h.2.1.symm
  · rename_i ch hq
    split at h
    · rename_i conn rest hb
      refine Or.inr ⟨ch, conn, rest, hq, hb, ?_⟩
      split at h <;>
        (simp only [Outcome.returns.injEq, Prod.mk.injEq] at h
         exact h.2.1.symm)
    · split at h
      · simp at h
      · split at h <;>
          (simp only [Outcome.returns.injEq, Prod.mk.injEq] at h
           exact Or.inl h.2.1.symm)

theorem Close_pool (connClose : ConnClose σ C E) (qp qp1 : QueuePool σ C E)
    (w w1 : World σ C) (err : Option (Error E))
    (h : QueuePool.Close connClose qp w = Outcome.returns (err, qp1, w1)) :
    qp1 = ⟨none, qp.constructor⟩ := by
  unfold QueuePool.Close at h
  split at h
  · simp at h
  · simp only [Outcome.bind_eq_returns] at h
    obtain ⟨a, -, hret⟩ := h
    split at hret <;>
      (simp only [Outcome.returns.injEq, Prod.mk.injEq] at hret
       exact hret.2.1.symm)

theorem Put_pool (connClose : ConnClose σ C E) (qp : QueuePool σ C E) (conn : Option C)
    (w : World σ C) :
    (QueuePool.Put connClose qp conn w).2.1 = qp ∨
      ∃ ch c, qp.connsQueue = some ch ∧ ch.buf.length < ch.cap
        ∧ (QueuePool.Put connClose qp conn w).2.1
            = ⟨some ⟨ch.cap, ch.buf ++ [some c]⟩, qp.constructor⟩ := by
  unfold QueuePool.Put
  split
  · exact Or.inl rfl
  · rename_i c
    split
    · exact Or.inl rfl
    · rename_i ch hq
      split
      · rename_i hlt
        exact Or.inr ⟨ch, c, hq, hlt, rfl⟩
      · exact Or.inl rfl

theorem step_withinCapacity (connClose : ConnClose σ C E) (m : Nat) (op : Op C)
    (qp qp1 : QueuePool σ C E) (w w1 : World σ C) (r : Ret C E)
    (h : step connClose op qp w = Outcome.returns (r, qp1, w1))
    (hinv : WithinCapacity m qp) : WithinCapacity m qp1 := by
  cases op with
  | get =>
    simp only [step, Outcome.bind_eq_returns] at h
    obtain ⟨⟨r', qp', w'⟩, hg, hret⟩ := h
    simp only [Outcome.returns.injEq, Prod.mk.injEq] at hret
    obtain ⟨-, rfl, -⟩ := hret
    rcases Get_pool qp qp' w w' r' hg with rfl | ⟨ch, conn, rest, hq, hb, rfl⟩
    · exact hinv
    · obtain ⟨hc, hl⟩ := hinv ch hq
      rw [hb] at hl
      simp only [List.length_cons] at hl
      intro ch' hch'
      simp only [Option.some.injEq] at hch'
      subst hch'
      exact ⟨hc, by simp only; omega⟩
  | put conn =>
    simp only [step, Outcome.returns.injEq, Prod.mk.injEq] at h
    obtain ⟨-, hp⟩ := h
    have hqp1 : qp1 = (QueuePool.Put connClose qp conn w).2.1 := by rw [hp]
    rcases Put_pool connClose qp conn w with h1 | ⟨ch, c, hq, hlt, h1⟩
    · rw [hqp1, h1]
      exact hinv
    · rw [hqp1, h1]
      obtain ⟨hc, hl⟩ := hinv ch hq
      intro ch' hch'
      simp only [Option.some.injEq] at hch'
      subst hch'
      exact ⟨hc, by simp; omega⟩
  | close =>
    simp only [step, Outcome.bind_eq_returns] at h
    obtain ⟨⟨err, qp', w'⟩, hc, hret⟩ := h
    simp only [Outcome.returns.injEq, Prod.mk.injEq] at hret
    obtain ⟨-, rfl, -⟩ := hret
    rw [Close_pool connClose qp qp' w w' err hc]
    intro ch' hch'
    simp at hch'

theorem run_withinCapacity (connClose : ConnClose σ C E) (m : Nat) (ops : List (Op C))
    (qp qp1 : QueuePool σ C E) (w w1 : World σ C) (rs : List (Ret C E))
    (h : run connClose ops qp w = Outcome.returns (rs, qp1, w1))
    (hinv : WithinCapacity m qp) : WithinCapacity m qp1 := by
  induction ops generalizing qp w rs with
  | nil =>
    simp only [run, Outcome.returns.injEq, Prod.mk.injEq] at h
    obtain ⟨-, rfl, -⟩ := h
    exact hinv
  | cons op ops ih =>
    obtain ⟨r, rs', qp', w', hs, hr, -⟩ := run_cons_inv connClose op ops qp qp1 w w1 rs h
    exact ih qp' w' rs' hr (step_withinCapacity connClose m op qp qp' w w' r hs hinv)

theorem Len_le_of_withinCapacity (m : Nat) (qp : QueuePool σ C E)
    (hinv : WithinCapacity m qp) : QueuePool.Len qp ≤ m := by
  unfold QueuePool.Len
  cases hq : qp.connsQueue with
  | none => simp
  | some ch => exact (hinv ch hq).2

theorem effectiveMaxConns_pos (maxConns : Int) : 1 ≤ effectiveMaxConns maxConns := by
  unfold effectiveMaxConns
  split <;> omega

theorem acquired_results (k : Constructor σ C E) (hk : ∀ s, ∃ c, (k s).1 = (some c, none))
    (n : Nat) (s : σ) :
    constructorResults k n s = List.map (fun c => (some c, none)) (acquired k n s) := by
  induction n generalizing s with
  | zero => rfl
  | succ n ih =>
    obtain ⟨c, hc⟩ := hk s
    have h := ih (k s).2
    simp only [acquired] at h ⊢
    simp only [constructorResults, hc]
    simp only [List.filterMap_cons, List.map_cons]
    rw [← h]

theorem acquired_length (k : Constructor σ C E) (hk : ∀ s, ∃ c, (k s).1 = (some c, none))
    (n : Nat) (s : σ) : (acquired k n s).length = n := by
  have h := congrArg List.length (acquired_results k hk n s)
  rw [constructorResults_length, List.length_map] at h
  exact h.symm

theorem run_gets_empty (connClose : ConnClose σ C E) (k : Constructor σ C E)
    (hk : ∀ s, (k s).1.2 = none) (cap n : Nat) (w : World σ C) :
    run connClose (List.replicate n Op.get) ⟨some ⟨cap, []⟩, some k⟩ w =
      Outcome.returns
        (List.map (fun r => Ret.got r.1 none) (constructorResults k n w.ext),
          ⟨some ⟨cap, []⟩, some k⟩,
          ⟨constructorState k n w.ext, w.log ++ List.replicate n Event.construct⟩) := by
  induction n generalizing w with
  | zero => simp [run, constructorResults, constructorState]
  | succ n ih =>
    have hs : step connClose Op.get (⟨some ⟨cap, []⟩, some k⟩ : QueuePool σ C E) w =
        Outcome.returns (Ret.got (k w.ext).1.1 none, ⟨some ⟨cap, []⟩, some k⟩,
          ⟨(k w.ext).2, w.log ++ [Event.construct]⟩) := by
      simp [step, QueuePool.Get, callConstructor, hk w.ext]
    rw [List.replicate_succ, run_cons_of_step connClose _ _ _ _ _ _ _ _ _ _ hs (ih _)]
    simp [constructorResults, constructorState, List.replicate_succ]

theorem run_puts_full (connClose : ConnClose σ C E) (cs : List C) (cap : Nat)
    (buf : List (Option C)) (ko : Option (Constructor σ C E)) (w : World σ C)
    (h : cap ≤ buf.length) :
    run connClose (List.map (fun c => Op.put (some c)) cs) ⟨some ⟨cap, buf⟩, ko⟩ w =
      Outcome.returns
        (List.map (fun e => Ret.putRet (Option.map Error.foreign e))
            (closeResults connClose cs w.ext),
          ⟨some ⟨cap, buf⟩, ko⟩,
          ⟨closeState connClose cs w.ext, w.log ++ List.map Event.close cs⟩) := by
  induction cs generalizing w with
  | nil => simp [run, closeResults, closeState]
  | cons c cs ih =>
    have hs : step connClose (Op.put (some c)) ⟨some ⟨cap, buf⟩, ko⟩ w =
        Outcome.returns (Ret.putRet (Option.map Error.foreign (connClose c w.ext).1),
          ⟨some ⟨cap, buf⟩, ko⟩, ⟨(connClose c w.ext).2, w.log ++ [Event.close c]⟩) := by
      simp [step, Put_full connClose c cap buf ko w h]
    rw [List.map_cons, run_cons_of_step connClose _ _ _ _ _ _ _ _ _ _ hs (ih _)]
    simp [closeResults, closeState]

theorem run_puts_empty (connClose : ConnClose σ C E) (cs : List C) (m : Nat)
    (ko : Option (Constructor σ C E)) (w : World σ C) :
    run connClose (List.map (fun c => Op.put (some c)) cs) ⟨some ⟨m, []⟩, ko⟩ w =
      Outcome.returns
        (List.replicate (min cs.length m) (Ret.putRet none)
            ++ List.map (fun e => Ret.putRet (Option.map Error.foreign e))
                (closeResults connClose (List.drop m cs) w.ext),
          ⟨some ⟨m, List.map some (List.take m cs)⟩, ko⟩,
          ⟨closeState connClose (List.drop m cs) w.ext,
            w.log ++ List.map Event.close (List.drop m cs)⟩) := by
  by_cases hlen : m ≤ cs.length
  · have h1 := run_puts_room connClose (List.take m cs) m [] ko w
      (by simp only [List.length_nil, List.length_take]; omega)
    have h2 := run_puts_full connClose (List.drop m cs) m ([] ++ List.map some (List.take m cs))
      ko w (by simp [List.length_take, Nat.min_eq_left hlen])
    have h3 := run_append connClose _ _ _ _ _ _ _ _ _ _ h1 h2
    rw [← List.map_append, List.take_append_drop, List.length_take] at h3
    rw [Nat.min_comm]
    simpa using h3
  · have hd : List.drop m cs = [] := List.drop_eq_nil_of_le (by omega)
    have ht : List.take m cs = cs := List.take_of_length_le (by omega)
    have h3 := run_puts_room connClose cs m [] ko w (by simp; omega)
    rw [hd, ht]
    simp only [closeResults, closeState, List.map_nil, List.append_nil]
    rw [Nat.min_eq_left (by omega)]
    simpa using h3

theorem run_closed (connClose : ConnClose σ C E) (ops : List (Op C))
    (hops : ∀ op ∈ ops, op ≠ Op.close) (ko : Option (Constructor σ C E)) (w : World σ C) :
    ∃ rs w2, run connClose ops ⟨none, ko⟩ w = Outcome.returns (rs, ⟨none, ko⟩, w2) := by
  induction ops generalizing w with
  | nil => exact ⟨[], w, rfl⟩
  | cons op ops ih =>
    have hrest : ∀ op' ∈ ops, op' ≠ Op.close := fun op' h => hops op' (List.mem_cons_of_mem _ h)
    cases op with
    | get =>
      obtain ⟨rs, w2, hr⟩ := ih hrest w
      exact ⟨Ret.got none (some Error.ErrPoolConnClosed) :: rs, w2,
        run_cons_of_step connClose _ _ _ _ _ _ _ _ _ _ (by simp [step, QueuePool.Get]) hr⟩
    | put conn =>
      cases conn with
      | none =>
        obtain ⟨rs, w2, hr⟩ := ih hrest w
        exact ⟨Ret.putRet (some Error.ErrNilConnEnqueued) :: rs, w2,
          run_cons_of_step connClose _ _ _ _ _ _ _ _ _ _ (by simp [step, QueuePool.Put]) hr⟩
      | some c =>
        obtain ⟨rs, w2, hr⟩ := ih hrest ⟨(connClose c w.ext).2, w.log ++ [Event.close c]⟩
        exact ⟨Ret.putRet (Option.map Error.foreign (connClose c w.ext).1) :: rs, w2,
          run_cons_of_step connClose _ _ _ _ _ _ _ _ _ _ (by simp [step, Put_closed]) hr⟩
    | close => exact absurd rfl (hops Op.close (List.mem_cons_self _ _))

theorem closeResults_length (connClose : ConnClose σ C E) (cs : List C) (s : σ) :
    (closeResults connClose cs s).length = cs.length := by
  induction cs generalizing s with
  | nil => rfl
  | cons c cs ih => simp [closeResults, ih]

theorem drain_returns (connClose : ConnClose σ C E) (cs : List C)
    (errorLists : ErrConnQueueClose E) (w : World σ C) :
    drain connClose (List.map some cs) errorLists w =
      Outcome.returns
        (errorLists ++ List.map some (List.filterMap id (closeResults connClose cs w.ext)),
          ⟨closeState connClose cs w.ext, w.log ++ List.map Event.close cs⟩) := by
  induction cs generalizing errorLists w with
  | nil => simp [drain, closeResults, closeState]
  | cons c cs ih =>
    rw [List.map_cons, drain]
    cases hc : (connClose c w.ext).1 with
    | none =>
      simp only [callClose, hc]
      rw [ih]
      simp [closeResults, closeState, hc]
    | some e =>
      simp only [callClose, hc]
      rw [ih]
      simp [closeResults, closeState, hc, ErrConnQueueClose.Collect]

theorem Close_open (connClose : ConnClose σ C E) (cs : List C) (cap : Nat)
    (ko : Option (Constructor σ C E)) (w : World σ C) :
    QueuePool.Close connClose ⟨some ⟨cap, List.map some cs⟩, ko⟩ w =
      Outcome.returns
        (aggregate (List.filterMap id (closeResults connClose cs w.ext)),
          ⟨none, ko⟩,
          ⟨closeState connClose cs w.ext, w.log ++ List.map Event.close cs⟩) := by
  simp only [QueuePool.Close, drain_returns, Outcome.bind_returns, List.nil_append]
  cases hf : List.filterMap id (closeResults connClose cs w.ext) with
  | nil => simp [ErrConnQueueClose.Len, aggregate]
  | cons e es => simp [ErrConnQueueClose.Len, aggregate]

/-! ## Construction -/

/-- C1, as stated, fails: `maxConns = 2^62` with `initConn = 0` is within
`maxConns ≥ 1` and `0 ≤ initConn ≤ maxConns`, and `NewQueuePool` panics in
`make(chan net.Conn, maxConns)` instead of returning a pool. -/
theorem NewQueuePool_makechan_panics :
    (1 : Int) ≤ 4611686018427387904 ∧ (0 : Int) ≤ 0 ∧ (0 : Int) ≤ 4611686018427387904
      ∧ NewQueuePool limits64 0 4611686018427387904 (some freshConn)
          (⟨0, []⟩ : World Nat Nat) = Outcome.panics :=
  ⟨by decide, by decide, by decide, rfl⟩

/-- C1 amended: for `maxConns ≥ 1` and `0 ≤ initConn ≤ maxConns`, both within the
capacities `make` accepts, `NewQueuePool` with a non-nil constructor returns,
after exactly `initConn` constructor calls in sequence, a non-nil open pool of
capacity `maxConns` whose buffer is the list of successfully constructed
connections in call order; with `f` failed calls `Len() = initConn - f`, and
the error is nil when `f = 0` and otherwise the aggregate of exactly the `f`
errors in call order (so its `Len()` is `f`); a never-failing constructor gives
`Len() = initConn`. -/
theorem NewQueuePool_populates (lim : Limits) (initConn maxConns : Int)
    (k : Constructor σ C E) (w : World σ C) (hmax : 1 ≤ maxConns) (h0 : 0 ≤ initConn)
    (hle : initConn ≤ maxConns) (hchan : maxConns ≤ (lim.maxChanCap : Int))
    (hslice : initConn ≤ (lim.maxSliceCap : Int)) :
    NewQueuePool lim initConn maxConns (some k) w =
        Outcome.returns
          ((some ⟨some ⟨maxConns.toNat,
              constructed (constructorResults k initConn.toNat w.ext)⟩, some k⟩,
            aggregate (failures (constructorResults k initConn.toNat w.ext))),
           ⟨constructorState k initConn.toNat w.ext,
            w.log ++ List.replicate initConn.toNat Event.construct⟩)
      ∧ (constructorResults k initConn.toNat w.ext).length = initConn.toNat
      ∧ ((QueuePool.Len (⟨some ⟨maxConns.toNat,
              constructed (constructorResults k initConn.toNat w.ext)⟩, some k⟩ :
            QueuePool σ C E) : Int)
          = initConn - ((failures (constructorResults k initConn.toNat w.ext)).length : Int))
      ∧ ((failures (constructorResults k initConn.toNat w.ext)).length = 0 →
          aggregate (failures (constructorResults k initConn.toNat w.ext)) = none)
      ∧ ((failures (constructorResults k initConn.toNat w.ext)).length ≠ 0 →
          aggregate (failures (constructorResults k initConn.toNat w.ext))
              = some (Error.connQueueClose
                  (List.map some (failures (constructorResults k initConn.toNat w.ext))))
            ∧ ErrConnQueueClose.Len
                (List.map some (failures (constructorResults k initConn.toNat w.ext)))
              = (failures (constructorResults k initConn.toNat w.ext)).length)
      ∧ ((∀ s, (k s).1.2 = none) →
          aggregate (failures (constructorResults k initConn.toNat w.ext)) = none
            ∧ ((QueuePool.Len (⟨some ⟨maxConns.toNat,
                  constructed (constructorResults k initConn.toNat w.ext)⟩, some k⟩ :
                QueuePool σ C E) : Int) = initConn)) := by
  have hlen := constructed_length_add (constructorResults k initConn.toNat w.ext)
  rw [constructorResults_length] at hlen
  have hLen : ((QueuePool.Len (⟨some ⟨maxConns.toNat,
              constructed (constructorResults k initConn.toNat w.ext)⟩, some k⟩ :
            QueuePool σ C E) : Int)
          = initConn - ((failures (constructorResults k initConn.toNat w.ext)).length : Int)) := by
    simp only [QueuePool.Len]
    omega
  refine ⟨?_, constructorResults_length _ _ _, hLen, ?_, ?_, ?_⟩
  · apply NewQueuePool_of_initLoop
    · rw [if_neg (by omega)]
    · rw [if_neg (by omega)]
    · omega
    · omega
    · omega
  · intro hf
    rw [List.length_eq_zero.mp hf]
    rfl
  · intro hf
    refine ⟨aggregate_ne_nil _ (fun h => hf (by rw [h]; rfl)), ?_⟩
    simp [ErrConnQueueClose.Len]
  · intro hk
    have hnil : failures (constructorResults k initConn.toNat w.ext) = [] :=
      failures_eq_nil _ (constructorResults_mem k (fun r => r.2 = none) hk _ _)
    rw [hLen, hnil]
    exact ⟨rfl, by simp⟩

/-- Witness for C1 amended, the scenario of the specification: `initConn = 5`,
`maxConns = 10` and only the third constructor call failing give a pool with
`Len() = 4` and an aggregate error of length 1. -/
theorem NewQueuePool_populates_witness :
    NewQueuePool limits64 5 10 (some thirdCallFails) ⟨0, []⟩ =
        Outcome.returns
          ((some ⟨some ⟨10, [some 0, some 1, some 3, some 4]⟩, some thirdCallFails⟩,
            some (Error.connQueueClose [some 7])),
           ⟨5, List.replicate 5 Event.construct⟩)
      ∧ QueuePool.Len (⟨some ⟨10, [some 0, some 1, some 3, some 4]⟩, some thirdCallFails⟩ :
          QueuePool Nat Nat Nat) = 4
      ∧ ErrConnQueueClose.Len ([some 7] : ErrConnQueueClose Nat) = 1 :=
  ⟨(NewQueuePool_populates limits64 5 10 thirdCallFails ⟨0, []⟩ (by decide) (by decide)
      (by decide) (by decide) (by decide)).1,
    rfl, rfl⟩

/-! ## Get -/

/-- C2: on an empty open pool of capacity `m`, after releasing the non-nil
connections `c1..ck` (`k ≤ m`) with `Put` in that order, the first `j` of the
next `Get` calls (for every `j ≤ k`) return `c1..cj` in that order, each with a
nil error; the world is left as it was (the constructor is not invoked, nothing
is closed) and `Len()` is `k - j`, one less after each call. -/
theorem Get_fifo (connClose : ConnClose σ C E) (ko : Option (Constructor σ C E)) (m : Nat)
    (cs : List C) (w : World σ C) (j : Nat) (hk : cs.length ≤ m) (hj : j ≤ cs.length) :
    run connClose (List.map (fun c => Op.put (some c)) cs ++ List.replicate j Op.get)
        ⟨some ⟨m, []⟩, ko⟩ w =
        Outcome.returns
          (List.replicate cs.length (Ret.putRet none)
              ++ List.map (fun c => Ret.got (some c) none) (List.take j cs),
            ⟨some ⟨m, List.map some (List.drop j cs)⟩, ko⟩, w)
      ∧ QueuePool.Len (⟨some ⟨m, List.map some (List.drop j cs)⟩, ko⟩ : QueuePool σ C E)
          = cs.length - j := by
  constructor
  · apply run_append connClose _ _ _ ⟨some ⟨m, List.map some cs⟩, ko⟩ _ w w w
    · simpa using run_puts_room connClose cs m [] ko w (by simpa using hk)
    · have h := run_gets_buffered connClose (List.take j cs) m
        (List.map some (List.drop j cs)) ko w
      rw [← List.map_append, List.take_append_drop, List.length_take,
        Nat.min_eq_left hj] at h
      exact h
  · simp [QueuePool.Len]

/-- Witness for C2: three connections released into an empty pool of capacity
3 come back in release order. -/
theorem Get_fifo_witness :
    run oddCloseFails [Op.put (some 7), Op.put (some 8), Op.put (some 9), Op.get, Op.get]
        (⟨some ⟨3, []⟩, some freshConn⟩ : QueuePool Nat Nat Nat) ⟨0, []⟩ =
        Outcome.returns
          ([Ret.putRet none, Ret.putRet none, Ret.putRet none,
              Ret.got (some 7) none, Ret.got (some 8) none],
            ⟨some ⟨3, [some 9]⟩, some freshConn⟩, ⟨0, []⟩)
      ∧ QueuePool.Len (⟨some ⟨3, [some 9]⟩, some freshConn⟩ : QueuePool Nat Nat Nat) = 1 :=
  Get_fifo oddCloseFails (some freshConn) 3 [7, 8, 9] ⟨0, []⟩ 2 (by decide) (by decide)

/-- C3: on an open pool with an empty buffer, `Get` returns after exactly one
constructor call: `(c, nil)` when the constructor returned `(c, nil)`, and
`(nil, ErrCreateConnFail)` when the constructor returned an error; either way
the pool is as before, open with an empty buffer. -/
theorem Get_constructs (k : Constructor σ C E) (cap : Nat) (w : World σ C) :
    (∀ c, (k w.ext).1 = (c, none) →
        QueuePool.Get ⟨some ⟨cap, []⟩, some k⟩ w =
          Outcome.returns ((c, none), ⟨some ⟨cap, []⟩, some k⟩,
            ⟨(k w.ext).2, w.log ++ [Event.construct]⟩))
      ∧ (∀ c e, (k w.ext).1 = (c, some e) →
        QueuePool.Get ⟨some ⟨cap, []⟩, some k⟩ w =
          Outcome.returns ((none, some Error.ErrCreateConnFail), ⟨some ⟨cap, []⟩, some k⟩,
            ⟨(k w.ext).2, w.log ++ [Event.construct]⟩)) := by
  constructor
  · intro c h
    simp [QueuePool.Get, callConstructor, h]
  · intro c e h
    simp [QueuePool.Get, callConstructor, h]

/-- Witness for C3: with the constructor whose third call fails, `Get` on an
empty pool mints connection 0 in state 0 and fails in state 2. -/
theorem Get_constructs_witness :
    QueuePool.Get (⟨some ⟨4, []⟩, some thirdCallFails⟩ : QueuePool Nat Nat Nat) ⟨0, []⟩ =
        Outcome.returns ((some 0, none), ⟨some ⟨4, []⟩, some thirdCallFails⟩,
          ⟨1, [Event.construct]⟩)
      ∧ QueuePool.Get (⟨some ⟨4, []⟩, some thirdCallFails⟩ : QueuePool Nat Nat Nat) ⟨2, []⟩ =
        Outcome.returns ((none, some Error.ErrCreateConnFail),
          ⟨some ⟨4, []⟩, some thirdCallFails⟩, ⟨3, [Event.construct]⟩) :=
  ⟨(Get_constructs thirdCallFails 4 ⟨0, []⟩).1 (some 0) rfl,
    (Get_constructs thirdCallFails 4 ⟨2, []⟩).2 none 7 rfl⟩

/-! ## Capacity -/

/-- C4: for a pool returned by `NewQueuePool`, with effective capacity `m`
(`maxConns`, or 100 when `maxConns < 1`), the state after every finite sequence
of `Get`, `Put` and `Close` calls has `Len() ≤ m`; and in such a state with
`Len() = m`, a `Put` of any argument leaves the pool as it is. -/
theorem capacity_invariant (connClose : ConnClose σ C E) (lim : Limits)
    (initConn maxConns : Int)
    (ko : Option (Constructor σ C E)) (w w0 : World σ C) (qp : QueuePool σ C E)
    (err : Option (Error E))
    (hnew : NewQueuePool lim initConn maxConns ko w = Outcome.returns ((some qp, err), w0))
    (ops : List (Op C)) (rs : List (Ret C E)) (qp1 : QueuePool σ C E) (w1 : World σ C)
    (hrun : run connClose ops qp w0 = Outcome.returns (rs, qp1, w1)) :
    (QueuePool.Len qp1 : Int) ≤ effectiveMaxConns maxConns
      ∧ ((QueuePool.Len qp1 : Int) = effectiveMaxConns maxConns →
          ∀ conn, (QueuePool.Put connClose qp1 conn w1).2.1 = qp1) := by
  have hinv := run_withinCapacity connClose _ ops qp qp1 w0 w1 rs hrun
    (NewQueuePool_withinCapacity lim initConn maxConns ko w w0 qp err hnew)
  have hpos := effectiveMaxConns_pos maxConns
  have hle := Len_le_of_withinCapacity _ qp1 hinv
  refine ⟨by omega, ?_⟩
  intro hfull conn
  cases conn with
  | none => rfl
  | some c =>
    simp only [QueuePool.Put]
    cases hq : qp1.connsQueue with
    | none => rfl
    | some ch =>
      obtain ⟨hc, -⟩ := hinv ch hq
      simp only [QueuePool.Len, hq] at hfull
      simp only
      rw [if_neg (by omega)]

/-- Witness for C4: three releases into a pool built with `maxConns = 2`. -/
theorem capacity_invariant_witness :
    (QueuePool.Len (⟨some ⟨2, [some 1, some 2]⟩, some freshConn⟩ : QueuePool Nat Nat Nat) : Int)
        ≤ effectiveMaxConns 2
      ∧ ((QueuePool.Len (⟨some ⟨2, [some 1, some 2]⟩, some freshConn⟩ :
            QueuePool Nat Nat Nat) : Int) = effectiveMaxConns 2 →
          ∀ conn, (QueuePool.Put oddCloseFails
            (⟨some ⟨2, [some 1, some 2]⟩, some freshConn⟩ : QueuePool Nat Nat Nat) conn
            ⟨0, [Event.close 3]⟩).2.1 = ⟨some ⟨2, [some 1, some 2]⟩, some freshConn⟩) :=
  capacity_invariant oddCloseFails limits64 0 2 (some freshConn) ⟨0, []⟩ ⟨0, []⟩
    ⟨some ⟨2, []⟩, some freshConn⟩ none rfl
    [Op.put (some 1), Op.put (some 2), Op.put (some 3)]
    [Ret.putRet none, Ret.putRet none, Ret.putRet (some (Error.foreign 3))]
    ⟨some ⟨2, [some 1, some 2]⟩, some freshConn⟩ ⟨0, [Event.close 3]⟩ rfl

/-- C5: on the pool built with `initConn = 0`, `maxConns = m ≥ 1` and a
never-failing constructor, here one whose every call returns a non-nil
connection with a nil error, the pool is open and empty; `n` calls of `Get`
all succeed, each by one on-demand construction, and leave the buffer empty;
releasing the `n` acquired connections with `Put`, in any order, then leaves
the first `min n m` of them buffered in release order (`Len() = min n m`) and
closes each of the other `n - m`, once, in release order. -/
theorem overflow_discarded (connClose : ConnClose σ C E) (lim : Limits)
    (k : Constructor σ C E) (m n : Nat) (w w0 : World σ C) (qp : QueuePool σ C E)
    (err : Option (Error E)) (hm : 1 ≤ m) (hk : ∀ s, ∃ c, (k s).1 = (some c, none))
    (hnew : NewQueuePool lim 0 (m : Int) (some k) w = Outcome.returns ((some qp, err), w0)) :
    (qp = ⟨some ⟨m, []⟩, some k⟩ ∧ err = none ∧ w0 = w)
      ∧ (acquired k n w0.ext).length = n
      ∧ run connClose (List.replicate n Op.get) qp w0 =
          Outcome.returns
            (List.map (fun c => Ret.got (some c) none) (acquired k n w0.ext),
              qp,
              ⟨constructorState k n w0.ext, w0.log ++ List.replicate n Event.construct⟩)
      ∧ ∀ released : List C, List.Perm released (acquired k n w0.ext) →
          run connClose
              (List.replicate n Op.get ++ List.map (fun c => Op.put (some c)) released)
              qp w0 =
            Outcome.returns
              (List.map (fun c => Ret.got (some c) none) (acquired k n w0.ext)
                  ++ (List.replicate (min n m) (Ret.putRet none)
                    ++ List.map (fun e => Ret.putRet (Option.map Error.foreign e))
                        (closeResults connClose (List.drop m released)
                          (constructorState k n w0.ext))),
                ⟨some ⟨m, List.map some (List.take m released)⟩, some k⟩,
                ⟨closeState connClose (List.drop m released) (constructorState k n w0.ext),
                  (w0.log ++ List.replicate n Event.construct)
                    ++ List.map Event.close (List.drop m released)⟩)
            ∧ QueuePool.Len (⟨some ⟨m, List.map some (List.take m released)⟩, some k⟩ :
                QueuePool σ C E) = min n m
            ∧ (List.drop m released).length = n - m := by
  obtain ⟨ch, errorLists, hloop, hq, herr⟩ := NewQueuePool_inv lim 0 (m : Int) k w w0 _ _ hnew
  have hm' : (if (m : Int) < 1 then DefaultMaxConn else (m : Int)).toNat = m := by
    rw [if_neg (by omega)]
    simp
  rw [hm'] at hloop
  simp only [lt_self_iff_false, if_false, Int.toNat_zero, initLoop, Outcome.returns.injEq,
    Prod.mk.injEq] at hloop
  obtain ⟨rfl, rfl, rfl⟩ := hloop
  have hqp : qp = ⟨some ⟨m, []⟩, some k⟩ := by simpa using hq
  have herr' : err = none := by simpa [ErrConnQueueClose.Len] using herr
  subst hqp
  have hk' : ∀ s, (k s).1.2 = none := fun s => by
    obtain ⟨c, hc⟩ := hk s
    rw [hc]
  have hacq := acquired_length k hk n w.ext
  have hgets : run connClose (List.replicate n Op.get) ⟨some ⟨m, []⟩, some k⟩ w =
      Outcome.returns
        (List.map (fun c => Ret.got (some c) none) (acquired k n w.ext),
          ⟨some ⟨m, []⟩, some k⟩,
          ⟨constructorState k n w.ext, w.log ++ List.replicate n Event.construct⟩) := by
    rw [run_gets_empty connClose k hk' m n w, acquired_results k hk n w.ext, List.map_map]
    rfl
  refine ⟨⟨rfl, herr', rfl⟩, hacq, hgets, ?_⟩
  intro released hperm
  have hlen : released.length = n := by rw [hperm.length_eq, hacq]
  have hputs := run_puts_empty connClose released m (some k)
    ⟨constructorState k n w.ext, w.log ++ List.replicate n Event.construct⟩
  rw [hlen] at hputs
  refine ⟨run_append connClose _ _ _ _ _ _ _ _ _ _ hgets hputs, ?_, ?_⟩
  · simp [QueuePool.Len, hlen, Nat.min_comm]
  · simp [hlen]

/-- Witness for C5, the scenario of the specification: capacity 2, three
acquisitions, three releases; two connections end up buffered and the third
released one is closed, once. -/
theorem overflow_discarded_witness :
    run oddCloseFails
        [Op.get, Op.get, Op.get, Op.put (some 0), Op.put (some 1), Op.put (some 2)]
        (⟨some ⟨2, []⟩, some freshConn⟩ : QueuePool Nat Nat Nat) ⟨0, []⟩ =
      Outcome.returns
        ([Ret.got (some 0) none, Ret.got (some 1) none, Ret.got (some 2) none,
            Ret.putRet none, Ret.putRet none, Ret.putRet none],
          ⟨some ⟨2, [some 0, some 1]⟩, some freshConn⟩,
          ⟨3, [Event.construct, Event.construct, Event.construct, Event.close 2]⟩)
      ∧ QueuePool.Len (⟨some ⟨2, [some 0, some 1]⟩, some freshConn⟩ : QueuePool Nat Nat Nat) = 2
      ∧ ([2] : List Nat).length = 3 - 2 :=
  (overflow_discarded oddCloseFails limits64 freshConn 2 3 ⟨0, []⟩ ⟨0, []⟩
    ⟨some ⟨2, []⟩, some freshConn⟩ none (by decide) (fun s => ⟨s, rfl⟩) rfl).2.2.2
    [0, 1, 2] (List.Perm.refl _)

/-! ## Close -/

/-- C6: once `Close()` has returned, after every sequence of `Get` and `Put`
calls the pool is still the closed pool, with `Len() = 0`; there `Get` returns
`(nil, ErrPoolConnClosed)` and leaves the world untouched (no constructor
call), and `Put(c)` with `c` non-nil makes the one call `c.Close()`, returns
its result and leaves the pool closed, with nothing buffered. -/
theorem closed_terminal (connClose : ConnClose σ C E) (qp qp1 : QueuePool σ C E)
    (w w1 : World σ C) (err : Option (Error E))
    (hclose : QueuePool.Close connClose qp w = Outcome.returns (err, qp1, w1))
    (ops : List (Op C)) (hops : ∀ op ∈ ops, op ≠ Op.close) :
    ∃ rs w2, run connClose ops qp1 w1 = Outcome.returns (rs, qp1, w2)
      ∧ qp1.connsQueue = none
      ∧ QueuePool.Len qp1 = 0
      ∧ QueuePool.Get qp1 w2 =
          Outcome.returns ((none, some Error.ErrPoolConnClosed), qp1, w2)
      ∧ ∀ c, QueuePool.Put connClose qp1 (some c) w2 =
          (Option.map Error.foreign (connClose c w2.ext).1, qp1,
            ⟨(connClose c w2.ext).2, w2.log ++ [Event.close c]⟩) := by
  have hqp1 := Close_pool connClose qp qp1 w w1 err hclose
  subst hqp1
  obtain ⟨rs, w2, hr⟩ := run_closed connClose ops hops qp.constructor w1
  exact ⟨rs, w2, hr, rfl, rfl, rfl, fun c => Put_closed connClose c qp.constructor w2⟩

/-- Witness for C6: a pool holding connection 1 is closed, then used. -/
theorem closed_terminal_witness :
    ∃ rs w2, run oddCloseFails [Op.get, Op.put (some 4), Op.put (some 3), Op.get]
          (⟨none, some freshConn⟩ : QueuePool Nat Nat Nat) ⟨0, [Event.close 1]⟩ =
        Outcome.returns (rs, ⟨none, some freshConn⟩, w2)
      ∧ (⟨none, some freshConn⟩ : QueuePool Nat Nat Nat).connsQueue = none
      ∧ QueuePool.Len (⟨none, some freshConn⟩ : QueuePool Nat Nat Nat) = 0
      ∧ QueuePool.Get (⟨none, some freshConn⟩ : QueuePool Nat Nat Nat) w2 =
          Outcome.returns ((none, some Error.ErrPoolConnClosed), ⟨none, some freshConn⟩, w2)
      ∧ ∀ c, QueuePool.Put oddCloseFails (⟨none, some freshConn⟩ : QueuePool Nat Nat Nat)
            (some c) w2 =
          (Option.map Error.foreign (oddCloseFails c w2.ext).1, ⟨none, some freshConn⟩,
            ⟨(oddCloseFails c w2.ext).2, w2.log ++ [Event.close c]⟩) :=
  closed_terminal oddCloseFails ⟨some ⟨2, [some 1]⟩, some freshConn⟩ ⟨none, some freshConn⟩
    ⟨0, []⟩ ⟨0, [Event.close 1]⟩ (some (Error.connQueueClose [some 1])) rfl
    [Op.get, Op.put (some 4), Op.put (some 3), Op.get] (by decide)

/-- C7: `Close()` on an open pool buffering the non-nil connections `cs`
returns after calling `Close` once on each of them, in FIFO order, and on
nothing else; the pool is then closed with `Len() = 0`; with `c` failed closes
the result is nil when `c = 0` and otherwise the aggregate of exactly the `c`
close errors in drain order, of `Len()` `c`. -/
theorem Close_drains (connClose : ConnClose σ C E) (cs : List C) (cap : Nat)
    (ko : Option (Constructor σ C E)) (w : World σ C) :
    QueuePool.Close connClose ⟨some ⟨cap, List.map some cs⟩, ko⟩ w =
        Outcome.returns
          (aggregate (List.filterMap id (closeResults connClose cs w.ext)),
            ⟨none, ko⟩,
            ⟨closeState connClose cs w.ext, w.log ++ List.map Event.close cs⟩)
      ∧ (closeResults connClose cs w.ext).length = cs.length
      ∧ QueuePool.Len (⟨none, ko⟩ : QueuePool σ C E) = 0
      ∧ ((List.filterMap id (closeResults connClose cs w.ext)).length = 0 →
          aggregate (List.filterMap id (closeResults connClose cs w.ext)) = none)
      ∧ ((List.filterMap id (closeResults connClose cs w.ext)).length ≠ 0 →
          aggregate (List.filterMap id (closeResults connClose cs w.ext))
              = some (Error.connQueueClose
                  (List.map some (List.filterMap id (closeResults connClose cs w.ext))))
            ∧ ErrConnQueueClose.Len
                (List.map some (List.filterMap id (closeResults connClose cs w.ext)))
              = (List.filterMap id (closeResults connClose cs w.ext)).length) := by
  refine ⟨Close_open connClose cs cap ko w, closeResults_length connClose cs w.ext, rfl, ?_, ?_⟩
  · intro hf
    rw [List.length_eq_zero.mp hf]
    rfl
  · intro hf
    refine ⟨aggregate_ne_nil _ (fun h => hf (by rw [h]; rfl)), ?_⟩
    simp [ErrConnQueueClose.Len]

/-- Witness for C7: of the buffered connections 1, 2, 3 the odd ones fail to
close, so `Close()` returns an aggregate of length 2. -/
theorem Close_drains_witness :
    QueuePool.Close oddCloseFails
        (⟨some ⟨5, [some 1, some 2, some 3]⟩, some freshConn⟩ : QueuePool Nat Nat Nat)
        ⟨0, []⟩ =
      Outcome.returns
        (some (Error.connQueueClose [some 1, some 3]), ⟨none, some freshConn⟩,
          ⟨0, [Event.close 1, Event.close 2, Event.close 3]⟩)
      ∧ ErrConnQueueClose.Len ([some 1, some 3] : ErrConnQueueClose Nat) = 2 :=
  ⟨(Close_drains oddCloseFails [1, 2, 3] 5 (some freshConn) ⟨0, []⟩).1,
    ((Close_drains oddCloseFails [1, 2, 3] 5 (some freshConn) ⟨0, []⟩).2.2.2.2
      (by decide)).2⟩

/-- C8: the first `Close()` on an open pool of non-nil connections returns and
leaves the channel nil; the second `Close()` then panics at
`close(qp.connsQueue)`, whatever the world. -/
theorem Close_twice_panics (connClose : ConnClose σ C E) (cs : List C) (cap : Nat)
    (ko : Option (Constructor σ C E)) (w : World σ C) :
    run connClose [Op.close] ⟨some ⟨cap, List.map some cs⟩, ko⟩ w =
        Outcome.returns
          ([Ret.closeRet (aggregate (List.filterMap id (closeResults connClose cs w.ext)))],
            ⟨none, ko⟩,
            ⟨closeState connClose cs w.ext, w.log ++ List.map Event.close cs⟩)
      ∧ (∀ w1, QueuePool.Close connClose (⟨none, ko⟩ : QueuePool σ C E) w1 = Outcome.panics)
      ∧ run connClose [Op.close, Op.close] ⟨some ⟨cap, List.map some cs⟩, ko⟩ w
          = Outcome.panics := by
  refine ⟨?_, fun w1 => rfl, ?_⟩
  · simp [run, step, Close_open]
  · have h1 : step connClose Op.close (⟨some ⟨cap, List.map some cs⟩, ko⟩ : QueuePool σ C E) w =
        Outcome.returns
          (Ret.closeRet (aggregate (List.filterMap id (closeResults connClose cs w.ext))),
            ⟨none, ko⟩,
            ⟨closeState connClose cs w.ext, w.log ++ List.map Event.close cs⟩) := by
      simp [step, Close_open]
    simp only [run, h1, Outcome.bind_returns]
    rfl

/-! ## Construction with defaults -/

/-- C9: where the claim says that `NewQueuePool` completes without blocking, the
code blocks.  With a constructor that never fails, `NewQueuePool(2, 1, ...)`
blocks on its second send `queuePool.connsQueue <- conn`, and
`NewQueuePool(-1, 5, ...)`, which substitutes the default 30 for the initial
count whatever `maxConns` is, blocks on its sixth; neither returns a pool. -/
theorem NewQueuePool_blocks :
    (∀ s, (freshConn s).1.2 = none)
      ∧ NewQueuePool limits64 2 1 (some freshConn) (⟨0, []⟩ : World Nat Nat) = Outcome.blocks
      ∧ NewQueuePool limits64 (-1) 5 (some freshConn) (⟨0, []⟩ : World Nat Nat)
          = Outcome.blocks :=
  ⟨fun _ => rfl, rfl, rfl⟩

/-- Where the effective values of `initConn` and `maxConns` (30 for a negative
`initConn`, 100 for `maxConns < 1`) are within the capacities `make` accepts
and the initial count is at most the capacity, `NewQueuePool` with a
constructor that never returns an error returns an open pool with a nil error,
of capacity the effective `maxConns` and with `Len()` the effective
`initConn`. -/
theorem NewQueuePool_defaults (lim : Limits) (initConn maxConns : Int)
    (k : Constructor σ C E) (w : World σ C) (hk : ∀ s, (k s).1.2 = none)
    (hle : effectiveInitConn initConn ≤ effectiveMaxConns maxConns)
    (hchan : effectiveMaxConns maxConns ≤ (lim.maxChanCap : Int))
    (hslice : effectiveInitConn initConn ≤ (lim.maxSliceCap : Int)) :
    NewQueuePool lim initConn maxConns (some k) w =
        Outcome.returns
          ((some ⟨some ⟨(effectiveMaxConns maxConns).toNat,
              constructed (constructorResults k (effectiveInitConn initConn).toNat w.ext)⟩,
              some k⟩, none),
            ⟨constructorState k (effectiveInitConn initConn).toNat w.ext,
              w.log ++ List.replicate (effectiveInitConn initConn).toNat Event.construct⟩)
      ∧ (((effectiveMaxConns maxConns).toNat : Nat) : Int) = effectiveMaxConns maxConns
      ∧ ((QueuePool.Len (⟨some ⟨(effectiveMaxConns maxConns).toNat,
              constructed (constructorResults k (effectiveInitConn initConn).toNat w.ext)⟩,
              some k⟩ : QueuePool σ C E) : Int) = effectiveInitConn initConn) := by
  have hpos := effectiveMaxConns_pos maxConns
  have hinit : 0 ≤ effectiveInitConn initConn := by
    unfold effectiveInitConn
    split <;> omega
  have hnil : failures (constructorResults k (effectiveInitConn initConn).toNat w.ext) = [] :=
    failures_eq_nil _ (constructorResults_mem k (fun r => r.2 = none) hk _ _)
  have hlen := constructed_length_add
    (constructorResults k (effectiveInitConn initConn).toNat w.ext)
  rw [constructorResults_length, hnil] at hlen
  refine ⟨?_, by omega, ?_⟩
  · have h := NewQueuePool_of_initLoop lim initConn maxConns k w
      (effectiveMaxConns maxConns).toNat (effectiveInitConn initConn).toNat rfl rfl
      (by omega) (by omega) (by omega)
    rw [hnil] at h
    exact h
  · simp only [QueuePool.Len]
    simp only [List.length_nil, Nat.add_zero] at hlen
    omega

/-- An instance: `NewQueuePool(-1, 0, ...)` takes both defaults. -/
theorem NewQueuePool_defaults_witness :
    ∃ buf w1, NewQueuePool limits64 (-1) 0 (some freshConn) (⟨0, []⟩ : World Nat Nat) =
        Outcome.returns ((some ⟨some ⟨100, buf⟩, some freshConn⟩, none), w1)
      ∧ QueuePool.Len (⟨some ⟨100, buf⟩, some freshConn⟩ : QueuePool Nat Nat Nat) = 30 :=
  ⟨_, _, (NewQueuePool_defaults limits64 (-1) 0 freshConn ⟨0, []⟩ (fun _ => rfl) (by decide)
    (by decide) (by decide)).1, rfl⟩

/-! ## Put -/

/-- C10: in every pool state, `Put(nil)` returns `ErrNilConnEnqueued`, closes
nothing and changes nothing; `Put(c)`, `c` non-nil, on an open pool with room
appends `c` at the tail (`Len()` grows by one), closes nothing and returns nil;
`Put(c)` on a full or closed pool makes the one call `c.Close()` and returns
its result, leaving the pool as it was.  So `Put` returns a non-nil error
exactly when its argument is nil or the fallback close was taken and failed. -/
theorem Put_result (connClose : ConnClose σ C E) (qp : QueuePool σ C E) (w : World σ C) :
    QueuePool.Put connClose qp none w = (some Error.ErrNilConnEnqueued, qp, w)
      ∧ (∀ c ch, qp.connsQueue = some ch → ch.buf.length < ch.cap →
          QueuePool.Put connClose qp (some c) w =
              (none, ⟨some ⟨ch.cap, ch.buf ++ [some c]⟩, qp.constructor⟩, w)
            ∧ QueuePool.Len (⟨some ⟨ch.cap, ch.buf ++ [some c]⟩, qp.constructor⟩ :
                QueuePool σ C E) = QueuePool.Len qp + 1)
      ∧ (∀ c, (qp.connsQueue = none
              ∨ ∃ ch, qp.connsQueue = some ch ∧ ch.cap ≤ ch.buf.length) →
          QueuePool.Put connClose qp (some c) w =
            (Option.map Error.foreign (connClose c w.ext).1, qp,
              ⟨(connClose c w.ext).2, w.log ++ [Event.close c]⟩))
      ∧ (∀ conn, (QueuePool.Put connClose qp conn w).1 ≠ none ↔
          (conn = none
            ∨ ∃ c, conn = some c
                ∧ (qp.connsQueue = none
                    ∨ ∃ ch, qp.connsQueue = some ch ∧ ch.cap ≤ ch.buf.length)
                ∧ (connClose c w.ext).1 ≠ none)) := by
  obtain ⟨q, ko⟩ := qp
  refine ⟨rfl, ?_, ?_, ?_⟩
  · intro c ch hq hlt
    simp only at hq
    subst hq
    exact ⟨Put_room connClose c ch.cap ch.buf ko w hlt, by simp [QueuePool.Len]⟩
  · intro c h
    rcases h with hq | ⟨ch, hq, hfull⟩
    · simp only at hq
      subst hq
      exact Put_closed connClose c ko w
    · simp only at hq
      subst hq
      exact Put_full connClose c ch.cap ch.buf ko w hfull
  · intro conn
    cases conn with
    | none => simp [QueuePool.Put]
    | some c =>
      cases q with
      | none => simp [Put_closed]
      | some ch =>
        by_cases hlt : ch.buf.length < ch.cap
        · have h := Put_room connClose c ch.cap ch.buf ko w hlt
          simp only [h]
          simp
          intro hfull
          omega
        · have h := Put_full connClose c ch.cap ch.buf ko w (by omega)
          simp only [h]
          simp
          intro _
          omega

/-- Witness for C10: a release into a pool with room, and a release of a
connection whose close fails into a full pool. -/
theorem Put_result_witness :
    QueuePool.Put oddCloseFails (⟨some ⟨2, [some 5]⟩, some freshConn⟩ : QueuePool Nat Nat Nat)
        (some 3) ⟨0, []⟩ =
      (none, ⟨some ⟨2, [some 5, some 3]⟩, some freshConn⟩, ⟨0, []⟩)
      ∧ QueuePool.Put oddCloseFails
          (⟨some ⟨1, [some 5]⟩, some freshConn⟩ : QueuePool Nat Nat Nat) (some 3) ⟨0, []⟩ =
        (some (Error.foreign 3), ⟨some ⟨1, [some 5]⟩, some freshConn⟩,
          ⟨0, [Event.close 3]⟩) :=
  ⟨((Put_result oddCloseFails ⟨some ⟨2, [some 5]⟩, some freshConn⟩ ⟨0, []⟩).2.1
      3 ⟨2, [some 5]⟩ rfl (by decide)).1,
    (Put_result oddCloseFails ⟨some ⟨1, [some 5]⟩, some freshConn⟩ ⟨0, []⟩).2.2.1
      3 (Or.inr ⟨⟨1, [some 5]⟩, rfl, by decide⟩)⟩

/-! ## The nil constructor -/

/-- C11: `NewQueuePool` returns `(nil, ErrBadNilConstructor)` exactly when the
constructor is nil, whatever `initConn` and `maxConns` are; it then leaves the
world as it was (nothing is constructed); with a non-nil constructor every
result it returns has a non-nil pool and an error other than
`ErrBadNilConstructor`. -/
theorem NewQueuePool_nil_constructor (lim : Limits) (initConn maxConns : Int)
    (ko : Option (Constructor σ C E)) (w : World σ C) :
    (ko = none →
        NewQueuePool lim initConn maxConns ko w =
          Outcome.returns ((none, some Error.ErrBadNilConstructor), w))
      ∧ (∀ w1, NewQueuePool lim initConn maxConns ko w =
            Outcome.returns ((none, some Error.ErrBadNilConstructor), w1) → ko = none)
      ∧ (∀ k qp err w1, ko = some k →
          NewQueuePool lim initConn maxConns ko w = Outcome.returns ((qp, err), w1) →
          qp ≠ none ∧ err ≠ some Error.ErrBadNilConstructor) := by
  have h3 : ∀ k qp err w1, ko = some k →
      NewQueuePool lim initConn maxConns ko w = Outcome.returns ((qp, err), w1) →
      qp ≠ none ∧ err ≠ some Error.ErrBadNilConstructor := by
    intro k qp err w1 hko h
    subst hko
    obtain ⟨ch, errorLists, -, rfl, rfl⟩ := NewQueuePool_inv lim initConn maxConns k w w1 _ _ h
    refine ⟨by simp, ?_⟩
    split <;> simp
  refine ⟨?_, ?_, h3⟩
  · intro hko
    subst hko
    rfl
  · intro w1 h
    cases ko with
    | none => rfl
    | some k => exact absurd rfl (h3 k none _ w1 rfl h).1

/-- Witness for C11: without a constructor nothing is built, whatever the
sizes asked for. -/
theorem NewQueuePool_nil_constructor_witness :
    NewQueuePool limits64 (-3) 0 (none : Option (Constructor Nat Nat Nat)) ⟨0, []⟩ =
      Outcome.returns ((none, some Error.ErrBadNilConstructor), ⟨0, []⟩) :=
  (NewQueuePool_nil_constructor limits64 (-3) 0 none ⟨0, []⟩).1 rfl

/-! ## The reusable connection -/

theorem ReusableConn_Close_real (connClose : ConnClose σ C E) (c : C) (ptr : Option Nat)
    (pools : Nat → QueuePool σ C E) (w : World σ C) :
    ReusableConn.Close connClose ⟨some c, ptr, false⟩ pools w =
      Outcome.returns (Option.map Error.foreign (connClose c w.ext).1, pools,
        ⟨(connClose c w.ext).2, w.log ++ [Event.close c]⟩) := by
  simp [ReusableConn.Close, callClose]

theorem ReusableConn_Close_absent (connClose : ConnClose σ C E) (ptr : Option Nat)
    (usable : Bool) (pools : Nat → QueuePool σ C E) (w : World σ C) :
    ReusableConn.Close connClose ⟨none, ptr, usable⟩ pools w =
      Outcome.returns (none, pools, w) := by
  simp [ReusableConn.Close]

theorem ReusableConn_Close_release (connClose : ConnClose σ C E) (c : C) (a : Nat)
    (pools : Nat → QueuePool σ C E) (w : World σ C) :
    ReusableConn.Close connClose ⟨some c, some a, true⟩ pools w =
      Outcome.returns ((QueuePool.Put connClose (pools a) (some c) w).1,
        Function.update pools a (QueuePool.Put connClose (pools a) (some c) w).2.1,
        (QueuePool.Put connClose (pools a) (some c) w).2.2) := by
  simp [ReusableConn.Close, QueuePool.put]

theorem Put_fallback (connClose : ConnClose σ C E) (qp : QueuePool σ C E) (c : C)
    (w : World σ C)
    (h : ∀ ch, qp.connsQueue = some ch → ch.cap ≤ ch.buf.length) :
    QueuePool.Put connClose qp (some c) w =
      (Option.map Error.foreign (connClose c w.ext).1, qp,
        ⟨(connClose c w.ext).2, w.log ++ [Event.close c]⟩) := by
  obtain ⟨q, ko⟩ := qp
  cases q with
  | none => exact Put_closed connClose c ko w
  | some ch => exact Put_full connClose c ch.cap ch.buf ko w (h ch rfl)

theorem applyToggles_fields (ts : List Toggle) (rc : ReusableConn C) :
    (applyToggles ts rc).Conn = rc.Conn ∧ (applyToggles ts rc).connPool = rc.connPool := by
  induction ts generalizing rc with
  | nil => exact ⟨rfl, rfl⟩
  | cons t ts ih =>
    have h := ih (applyToggle rc t)
    cases t <;> exact h

theorem applyToggles_usable (ts : List Toggle) (rc : ReusableConn C) (t : Toggle)
    (h : ts.getLast? = some t) :
    (applyToggles ts rc).usable = decide (t = Toggle.setUsable) := by
  induction ts using List.reverseRecOn with
  | nil => simp at h
  | append_singleton l x _ =>
    have hx : x = t := by simpa [Option.or] using h
    subst hx
    simp only [applyToggles, List.foldl_append, List.foldl_cons, List.foldl_nil]
    cases x <;> simp [applyToggle, ReusableConn.SetUsable, ReusableConn.SetUnusable]

/-- C12: a wrapper fresh from `NewReusableConn` around a non-nil connection `c`
closes for real: its `Close()` returns after the one call `c.Close()`, with
that call's result, and leaves every pool as it was. -/
theorem fresh_wrapper_closes (connClose : ConnClose σ C E) (c : C) (ptr : Option Nat)
    (pools : Nat → QueuePool σ C E) (w : World σ C) :
    (NewReusableConn (some c) ptr).usable = false
      ∧ ReusableConn.Close connClose (NewReusableConn (some c) ptr) pools w =
        Outcome.returns (Option.map Error.foreign (connClose c w.ext).1, pools,
          ⟨(connClose c w.ext).2, w.log ++ [Event.close c]⟩) :=
  ⟨rfl, ReusableConn_Close_real connClose c ptr pools w⟩

/-- C13, as stated, fails: on a full pool (capacity 1, one connection buffered)
the `Close()` of a usable wrapper around connection 3 calls the connection's
`Close` and leaves `Len()` at 1. -/
theorem usable_wrapper_full_pool :
    ∃ err pools1 w1,
      ReusableConn.Close oddCloseFails
          (ReusableConn.SetUsable (NewReusableConn (some 3) (some 0)))
          (onePool ⟨some ⟨1, [some 5]⟩, some freshConn⟩) ⟨0, []⟩ =
        Outcome.returns (err, pools1, w1)
      ∧ w1.log = [Event.close 3]
      ∧ QueuePool.Len (pools1 0) = 1
      ∧ QueuePool.Len (onePool ⟨some ⟨1, [some 5]⟩, some freshConn⟩ 0) = 1 :=
  ⟨_, _, _, rfl, rfl, rfl, rfl⟩

/-- C13 amended: for a wrapper around a non-nil connection `c` whose pool is
open with `Len()` below its capacity, after `SetUsable()` the wrapper's
`Close()` returns nil, does not call `c.Close()`, makes `c` the last buffered
connection of the pool and `Len()` one greater; no other pool changes. -/
theorem usable_wrapper_releases (connClose : ConnClose σ C E) (c : C) (a : Nat)
    (pools : Nat → QueuePool σ C E) (w : World σ C) (ch : Chan C)
    (hopen : (pools a).connsQueue = some ch) (hroom : ch.buf.length < ch.cap) :
    ReusableConn.Close connClose (ReusableConn.SetUsable (NewReusableConn (some c) (some a)))
        pools w =
        Outcome.returns (none,
          Function.update pools a ⟨some ⟨ch.cap, ch.buf ++ [some c]⟩, (pools a).constructor⟩,
          w)
      ∧ QueuePool.Len (⟨some ⟨ch.cap, ch.buf ++ [some c]⟩, (pools a).constructor⟩ :
          QueuePool σ C E) = QueuePool.Len (pools a) + 1 := by
  have hp : pools a = ⟨some ⟨ch.cap, ch.buf⟩, (pools a).constructor⟩ := by
    cases hq : pools a with
    | mk q ko =>
      rw [hq] at hopen
      simp only at hopen
      subst hopen
      rfl
  constructor
  · show ReusableConn.Close connClose ⟨some c, some a, true⟩ pools w = _
    rw [ReusableConn_Close_release, hp, Put_room connClose c ch.cap ch.buf _ w hroom]
  · rw [hp]
    simp [QueuePool.Len]

/-- Witness for C13 amended: a usable wrapper around connection 3 releases it
into a pool of capacity 2 that buffers one connection. -/
theorem usable_wrapper_releases_witness :
    ReusableConn.Close oddCloseFails
        (ReusableConn.SetUsable (NewReusableConn (some 3) (some 0)))
        (onePool ⟨some ⟨2, [some 5]⟩, some freshConn⟩) ⟨0, []⟩ =
        Outcome.returns (none,
          Function.update (onePool ⟨some ⟨2, [some 5]⟩, some freshConn⟩) 0
            ⟨some ⟨2, [some 5, some 3]⟩, some freshConn⟩,
          ⟨0, []⟩)
      ∧ QueuePool.Len (⟨some ⟨2, [some 5, some 3]⟩, some freshConn⟩ : QueuePool Nat Nat Nat)
          = QueuePool.Len (onePool ⟨some ⟨2, [some 5]⟩, some freshConn⟩ 0) + 1 :=
  usable_wrapper_releases oddCloseFails 3 0 (onePool ⟨some ⟨2, [some 5]⟩, some freshConn⟩)
    ⟨0, []⟩ ⟨2, [some 5]⟩ rfl (by decide)

/-- C14: one `Close()` of a wrapper around a non-nil connection `c`, whatever
its flag and whatever the state of its pool, returns with exactly one of two
outcomes: `c` is appended to the pool's buffer and the world is untouched
(`c.Close()` is not called), or `c.Close()` is called once and every pool is as
before. -/
theorem never_both (connClose : ConnClose σ C E) (c : C) (a : Nat) (usable : Bool)
    (pools : Nat → QueuePool σ C E) (w : World σ C) :
    ∃ err pools1 w1,
      ReusableConn.Close connClose ⟨some c, some a, usable⟩ pools w =
        Outcome.returns (err, pools1, w1)
      ∧ ((((∃ ch, (pools a).connsQueue = some ch
                ∧ pools1 = Function.update pools a
                    ⟨some ⟨ch.cap, ch.buf ++ [some c]⟩, (pools a).constructor⟩)
              ∧ w1 = w)
            ∧ ¬ (pools1 = pools ∧ w1.log = w.log ++ [Event.close c]))
          ∨ ((pools1 = pools ∧ w1.log = w.log ++ [Event.close c])
            ∧ ¬ ((∃ ch, (pools a).connsQueue = some ch
                ∧ pools1 = Function.update pools a
                    ⟨some ⟨ch.cap, ch.buf ++ [some c]⟩, (pools a).constructor⟩)
              ∧ w1 = w))) := by
  have hlog : ∀ w1 : World σ C, w1.log = w.log ++ [Event.close c] → w1 ≠ w := by
    intro w1 h1 h2
    rw [h2] at h1
    have := congrArg List.length h1
    simp at this
  cases usable with
  | false =>
    refine ⟨_, _, _, ReusableConn_Close_real connClose c (some a) pools w, Or.inr ⟨⟨rfl, rfl⟩, ?_⟩⟩
    rintro ⟨-, h⟩
    exact hlog _ rfl h
  | true =>
    refine ⟨_, _, _, ReusableConn_Close_release connClose c a pools w, ?_⟩
    by_cases hroom : ∃ ch, (pools a).connsQueue = some ch ∧ ch.buf.length < ch.cap
    · obtain ⟨ch, hq, hlt⟩ := hroom
      have hp : pools a = ⟨some ⟨ch.cap, ch.buf⟩, (pools a).constructor⟩ := by
        cases hpa : pools a with
        | mk q ko =>
          rw [hpa] at hq
          simp only at hq
          subst hq
          rfl
      have hput : QueuePool.Put connClose (pools a) (some c) w =
          (none, ⟨some ⟨ch.cap, ch.buf ++ [some c]⟩, (pools a).constructor⟩, w) := by
        rw [hp]
        exact Put_room connClose c ch.cap ch.buf _ w hlt
      rw [hput]
      refine Or.inl ⟨⟨⟨ch, hq, rfl⟩, rfl⟩, ?_⟩
      rintro ⟨-, h⟩
      have := congrArg List.length h
      simp at this
    · have hfull : ∀ ch, (pools a).connsQueue = some ch → ch.cap ≤ ch.buf.length := by
        intro ch hq
        by_contra hlt
        exact hroom ⟨ch, hq, by omega⟩
      rw [Put_fallback connClose (pools a) c w hfull]
      refine Or.inr ⟨⟨Function.update_eq_self a pools, rfl⟩, ?_⟩
      rintro ⟨-, h⟩
      exact hlog _ rfl h

theorem foldl_Collect {ε : Type} (args : List (Option ε)) (errConn : ErrConnQueueClose ε) :
    List.foldl ErrConnQueueClose.Collect errConn args
      = errConn ++ List.filter Option.isSome args := by
  induction args generalizing errConn with
  | nil => simp
  | cons x xs ih =>
    cases x with
    | none => simp [ih, ErrConnQueueClose.Collect]
    | some e => simp [ih, ErrConnQueueClose.Collect]

theorem foldl_report {ε : Type} (message : ε → String) (errConn : ErrConnQueueClose ε)
    (msg : String) :
    List.foldl
        (fun msg err =>
          match err with
          | none => msg
          | some e => msg ++ ("\t- error: " ++ message e ++ "\n"))
        msg errConn
      = msg ++ concatLines
          (List.map (fun e => "\t- error: " ++ message e ++ "\n") (List.filterMap id errConn)) := by
  induction errConn generalizing msg with
  | nil => simp [concatLines]
  | cons x xs ih =>
    cases x with
    | none => simp [ih]
    | some e =>
      show List.foldl _ (msg ++ ("\t- error: " ++ message e ++ "\n")) xs = _
      rw [ih]
      simp [concatLines, String.append_assoc]

/-! ## The error collector -/

/-- C15: after any finite sequence of `Collect` calls on an empty collector the
stored sequence is the subsequence of the non-nil arguments, in call order:
`Collect(nil)` changes nothing, `Collect(e)` appends `e` at the end, no nil is
stored, and `Len()` is the number of non-nil arguments. -/
theorem Collect_sequence {ε : Type} (args : List (Option ε)) (errConn : ErrConnQueueClose ε)
    (e : ε) :
    List.foldl ErrConnQueueClose.Collect [] args = List.filter Option.isSome args
      ∧ ErrConnQueueClose.Collect errConn none = errConn
      ∧ ErrConnQueueClose.Collect errConn (some e) = errConn ++ [some e]
      ∧ none ∉ List.foldl ErrConnQueueClose.Collect [] args
      ∧ ErrConnQueueClose.Len (List.foldl ErrConnQueueClose.Collect [] args)
          = List.countP Option.isSome args := by
  have h := foldl_Collect args []
  rw [List.nil_append] at h
  refine ⟨h, rfl, rfl, ?_, ?_⟩
  · rw [h]
    simp
  · rw [h, ErrConnQueueClose.Len, List.countP_eq_length_filter]

/-- C18: `Error()` is the header line followed, for each stored error in
stored order, by one line made of a tab, `- error: `, the error's message and a
newline (a nil entry contributes nothing); for a collector holding the errors
`e1..en` every one of them has its line, once, and the empty collector gives
the header alone. -/
theorem Error_report {ε : Type} (message : ε → String) (errConn : ErrConnQueueClose ε)
    (es : List ε) :
    ErrConnQueueClose.Error message errConn =
        "errors occured during QueuePool.Close() :\n"
          ++ concatLines (List.map (fun e => "\t- error: " ++ message e ++ "\n")
              (List.filterMap id errConn))
      ∧ ErrConnQueueClose.Error message (List.map some es) =
        "errors occured during QueuePool.Close() :\n"
          ++ concatLines (List.map (fun e => "\t- error: " ++ message e ++ "\n") es)
      ∧ (List.map (fun e => "\t- error: " ++ message e ++ "\n") es).length = es.length
      ∧ ErrConnQueueClose.Error message [] = "errors occured during QueuePool.Close() :\n" := by
  refine ⟨foldl_report message errConn _, ?_, by simp, rfl⟩
  have h := foldl_report message (List.map some es)
    "errors occured during QueuePool.Close() :\n"
  rw [List.filterMap_map] at h
  simpa [ErrConnQueueClose.Error] using h

/-! ## The usable flag -/

/-- C17: on every wrapper, any finite sequence of `SetUsable` and `SetUnusable`
calls leaves the wrapped connection and the pool reference as they were (pools
and world are not touched: the calls act on the wrapper alone) and sets the
flag by the last call.  The `Close()` that follows is the pool's `Put(c)` when
the last call was `SetUsable` and the connection `c` is present, the real close
`c.Close()` when the last call was `SetUnusable` (or there was none, on a
wrapper never made usable) and `c` is present, and returns nil without any
effect when the connection is absent. -/
theorem toggles_only_flag (connClose : ConnClose σ C E) (rc : ReusableConn C)
    (ts : List Toggle) (pools : Nat → QueuePool σ C E) (w : World σ C) :
    (applyToggles ts rc).Conn = rc.Conn
      ∧ (applyToggles ts rc).connPool = rc.connPool
      ∧ (∀ t, ts.getLast? = some t →
          (applyToggles ts rc).usable = decide (t = Toggle.setUsable))
      ∧ (∀ c a, rc.Conn = some c → rc.connPool = some a →
          ts.getLast? = some Toggle.setUsable →
          ReusableConn.Close connClose (applyToggles ts rc) pools w =
            Outcome.returns ((QueuePool.Put connClose (pools a) (some c) w).1,
              Function.update pools a (QueuePool.Put connClose (pools a) (some c) w).2.1,
              (QueuePool.Put connClose (pools a) (some c) w).2.2))
      ∧ (∀ c, rc.Conn = some c →
          (ts.getLast? = some Toggle.setUnusable ∨ (ts = [] ∧ rc.usable = false)) →
          ReusableConn.Close connClose (applyToggles ts rc) pools w =
            Outcome.returns (Option.map Error.foreign (connClose c w.ext).1, pools,
              ⟨(connClose c w.ext).2, w.log ++ [Event.close c]⟩))
      ∧ (rc.Conn = none →
          ReusableConn.Close connClose (applyToggles ts rc) pools w =
            Outcome.returns (none, pools, w)) := by
  obtain ⟨hc, hp⟩ := applyToggles_fields ts rc
  have hrc : ∀ b, (applyToggles ts rc).usable = b →
      applyToggles ts rc = ⟨rc.Conn, rc.connPool, b⟩ := by
    intro b hb
    cases hr : applyToggles ts rc with
    | mk x y z =>
      rw [hr] at hc hp hb
      simp only at hc hp hb
      rw [hc, hp, hb]
  refine ⟨hc, hp, fun t ht => applyToggles_usable ts rc t ht, ?_, ?_, ?_⟩
  · intro c a hconn hptr hlast
    rw [hrc true (by simpa using applyToggles_usable ts rc _ hlast), hconn, hptr]
    exact ReusableConn_Close_release connClose c a pools w
  · intro c hconn hlast
    have hu : (applyToggles ts rc).usable = false := by
      rcases hlast with hlast | ⟨hnil, hflag⟩
      · simpa using applyToggles_usable ts rc _ hlast
      · subst hnil
        exact hflag
    rw [hrc false hu, hconn]
    exact ReusableConn_Close_real connClose c rc.connPool pools w
  · intro hconn
    rw [hrc _ rfl, hconn]
    exact ReusableConn_Close_absent connClose rc.connPool _ pools w

/-- Witness for C17: after `SetUsable(); SetUnusable(); SetUsable()` the
wrapper around connection 3 releases it into its pool; after
`SetUsable(); SetUnusable()` it closes it, as does the wrapper on which neither
was called. -/
theorem toggles_only_flag_witness :
    ReusableConn.Close oddCloseFails
        (applyToggles [Toggle.setUsable, Toggle.setUnusable, Toggle.setUsable]
          (NewReusableConn (some 3) (some 0)))
        (onePool ⟨some ⟨2, []⟩, some freshConn⟩) ⟨0, []⟩ =
        Outcome.returns (none,
          Function.update (onePool ⟨some ⟨2, []⟩, some freshConn⟩) 0
            ⟨some ⟨2, [some 3]⟩, some freshConn⟩,
          ⟨0, []⟩)
      ∧ ReusableConn.Close oddCloseFails
          (applyToggles [Toggle.setUsable, Toggle.setUnusable]
            (NewReusableConn (some 3) (some 0)))
          (onePool ⟨some ⟨2, []⟩, some freshConn⟩) ⟨0, []⟩ =
        Outcome.returns (some (Error.foreign 3), onePool ⟨some ⟨2, []⟩, some freshConn⟩,
          ⟨0, [Event.close 3]⟩)
      ∧ ReusableConn.Close oddCloseFails
          (applyToggles [] (NewReusableConn (some 3) (some 0)))
          (onePool ⟨some ⟨2, []⟩, some freshConn⟩) ⟨0, []⟩ =
        Outcome.returns (some (Error.foreign 3), onePool ⟨some ⟨2, []⟩, some freshConn⟩,
          ⟨0, [Event.close 3]⟩) :=
  ⟨(toggles_only_flag oddCloseFails (NewReusableConn (some 3) (some 0))
      [Toggle.setUsable, Toggle.setUnusable, Toggle.setUsable]
      (onePool ⟨some ⟨2, []⟩, some freshConn⟩) ⟨0, []⟩).2.2.2.1 3 0 rfl rfl rfl,
    (toggles_only_flag oddCloseFails (NewReusableConn (some 3) (some 0))
      [Toggle.setUsable, Toggle.setUnusable]
      (onePool ⟨some ⟨2, []⟩, some freshConn⟩) ⟨0, []⟩).2.2.2.2.1 3 rfl (Or.inl rfl),
    (toggles_only_flag oddCloseFails (NewReusableConn (some 3) (some 0)) []
      (onePool ⟨some ⟨2, []⟩, some freshConn⟩) ⟨0, []⟩).2.2.2.2.1 3 rfl (Or.inr ⟨rfl, rfl⟩)⟩

/-! ## Nil connections and repeated releases -/

theorem initLoop_noNil (k : Constructor σ C E) (hk : ∀ s, (k s).1.2 = none → (k s).1.1 ≠ none)
    (n : Nat) (ch ch1 : Chan C) (errorLists errorLists1 : ErrConnQueueClose E)
    (w w1 : World σ C)
    (h : initLoop k n ch errorLists w = Outcome.returns (ch1, errorLists1, w1))
    (hch : ∀ x ∈ ch.buf, x ≠ none) : ∀ x ∈ ch1.buf, x ≠ none := by
  induction n generalizing ch errorLists w with
  | zero =>
    simp only [initLoop, Outcome.returns.injEq, Prod.mk.injEq] at h
    obtain ⟨rfl, -, -⟩ := h
    exact hch
  | succ n ih =>
    rw [initLoop] at h
    split at h
    · exact ih _ _ _ h hch
    · rename_i herr
      split at h
      · refine ih _ _ _ h ?_
        intro x hx
        simp only [List.mem_append, List.mem_singleton] at hx
        rcases hx with hx | rfl
        · exact hch x hx
        · exact hk w.ext herr
      · simp at h

theorem NewQueuePool_noNil (lim : Limits) (initConn maxConns : Int)
    (k : Constructor σ C E)
    (hk : ∀ s, (k s).1.2 = none → (k s).1.1 ≠ none) (w w0 : World σ C)
    (qp : QueuePool σ C E) (err : Option (Error E))
    (h : NewQueuePool lim initConn maxConns (some k) w =
      Outcome.returns ((some qp, err), w0)) :
    NoNilBuffered qp ∧ qp.constructor = some k ∧ qp.connsQueue ≠ none := by
  obtain ⟨ch, errorLists, hloop, hq, -⟩ := NewQueuePool_inv lim initConn maxConns k w w0 _ _ h
  have hbuf := initLoop_noNil k hk _ _ _ _ _ _ _ hloop (by simp)
  have hqp : qp = ⟨some ch, some k⟩ := by simpa using hq
  subst hqp
  refine ⟨?_, rfl, by simp⟩
  intro ch' hch'
  simp only [Option.some.injEq] at hch'
  subst hch'
  exact hbuf

theorem step_pool (connClose : ConnClose σ C E) (op : Op C) (qp qp1 : QueuePool σ C E)
    (w w1 : World σ C) (r : Ret C E)
    (h : step connClose op qp w = Outcome.returns (r, qp1, w1)) :
    (op ≠ Op.close ∧
        (qp1 = qp
          ∨ (∃ ch conn rest, qp.connsQueue = some ch ∧ ch.buf = conn :: rest
              ∧ qp1 = ⟨some ⟨ch.cap, rest⟩, qp.constructor⟩)
          ∨ ∃ ch c, qp.connsQueue = some ch
              ∧ qp1 = ⟨some ⟨ch.cap, ch.buf ++ [some c]⟩, qp.constructor⟩))
      ∨ (op = Op.close ∧ qp.connsQueue ≠ none ∧ qp1 = ⟨none, qp.constructor⟩) := by
  cases op with
  | get =>
    simp only [step, Outcome.bind_eq_returns] at h
    obtain ⟨⟨r', qp', w'⟩, hg, hret⟩ := h
    simp only [Outcome.returns.injEq, Prod.mk.injEq] at hret
    obtain ⟨-, rfl, -⟩ := hret
    refine Or.inl ⟨by simp, ?_⟩
    rcases Get_pool qp qp' w w' r' hg with h1 | h1
    · exact Or.inl h1
    · exact Or.inr (Or.inl h1)
  | put conn =>
    simp only [step, Outcome.returns.injEq, Prod.mk.injEq] at h
    obtain ⟨-, hp⟩ := h
    have hqp1 : qp1 = (QueuePool.Put connClose qp conn w).2.1 := by rw [hp]
    refine Or.inl ⟨by simp, ?_⟩
    rcases Put_pool connClose qp conn w with h1 | ⟨ch, c, hq, -, h1⟩
    · exact Or.inl (hqp1.trans h1)
    · exact Or.inr (Or.inr ⟨ch, c, hq, hqp1.trans h1⟩)
  | close =>
    simp only [step, Outcome.bind_eq_returns] at h
    obtain ⟨⟨err, qp', w'⟩, hc, hret⟩ := h
    simp only [Outcome.returns.injEq, Prod.mk.injEq] at hret
    obtain ⟨-, rfl, -⟩ := hret
    refine Or.inr ⟨rfl, ?_, Close_pool connClose qp qp' w w' err hc⟩
    intro hq
    simp [QueuePool.Close, hq] at hc

theorem run_noNil (connClose : ConnClose σ C E) (ops : List (Op C))
    (qp qp1 : QueuePool σ C E) (w w1 : World σ C) (rs : List (Ret C E))
    (h : run connClose ops qp w = Outcome.returns (rs, qp1, w1))
    (hinv : NoNilBuffered qp) :
    NoNilBuffered qp1 ∧ qp1.constructor = qp.constructor
      ∧ (qp1.connsQueue = none ↔ (qp.connsQueue = none ∨ Op.close ∈ ops)) := by
  induction ops generalizing qp w rs with
  | nil =>
    simp only [run, Outcome.returns.injEq, Prod.mk.injEq] at h
    obtain ⟨-, rfl, -⟩ := h
    exact ⟨hinv, rfl, by simp⟩
  | cons op ops ih =>
    obtain ⟨r, rs', qp', w', hs, hr, -⟩ := run_cons_inv connClose op ops qp qp1 w w1 rs h
    have hstep : NoNilBuffered qp' ∧ qp'.constructor = qp.constructor
        ∧ (qp'.connsQueue = none ↔ (qp.connsQueue = none ∨ op = Op.close)) := by
      rcases step_pool connClose op qp qp' w w' r hs with
        ⟨hne, h1 | ⟨ch, conn, rest, hq, hb, h1⟩ | ⟨ch, c, hq, h1⟩⟩ | ⟨hop, hq, h1⟩
      · subst h1
        exact ⟨hinv, rfl, by simp [hne]⟩
      · subst h1
        refine ⟨?_, rfl, by simp [hne, hq]⟩
        intro ch' hch' x hx
        simp only [Option.some.injEq] at hch'
        subst hch'
        exact hinv ch hq x (by rw [hb]; exact List.mem_cons_of_mem _ hx)
      · subst h1
        refine ⟨?_, rfl, by simp [hne, hq]⟩
        intro ch' hch' x hx
        simp only [Option.some.injEq] at hch'
        subst hch'
        simp only [List.mem_append, List.mem_singleton] at hx
        rcases hx with hx | rfl
        · exact hinv ch hq x hx
        · simp
      · subst h1
        refine ⟨?_, rfl, by simp [hop]⟩
        intro ch' hch'
        simp at hch'
    obtain ⟨h1, h2, h3⟩ := ih qp' w' rs' hr hstep.1
    refine ⟨h1, h2.trans hstep.2.1, ?_⟩
    rw [h3, hstep.2.2, List.mem_cons]
    constructor
    · rintro ((h | h) | h)
      · exact Or.inl h
      · exact Or.inr (Or.inl h.symm)
      · exact Or.inr (Or.inr h)
    · rintro (h | h | h)
      · exact Or.inl (Or.inl h)
      · exact Or.inl (Or.inr h.symm)
      · exact Or.inr h

theorem Get_noNil (k : Constructor σ C E) (hk : ∀ s, (k s).1.2 = none → (k s).1.1 ≠ none)
    (qp : QueuePool σ C E) (w : World σ C) (hinv : NoNilBuffered qp)
    (hcon : qp.constructor = some k) :
    ∃ r qp2 w2, QueuePool.Get qp w = Outcome.returns (r, qp2, w2)
      ∧ (r.2 = some Error.ErrPoolConnClosed ↔ qp.connsQueue = none)
      ∧ (r.2 = none → r.1 ≠ none) := by
  obtain ⟨q, ko⟩ := qp
  simp only at hcon
  subst hcon
  cases q with
  | none => exact ⟨_, _, _, rfl, by simp, by simp⟩
  | some ch =>
    obtain ⟨cap, buf⟩ := ch
    cases buf with
    | cons x rest =>
      cases x with
      | none => exact absurd rfl (hinv ⟨cap, none :: rest⟩ rfl none (List.mem_cons_self _ _))
      | some c => exact ⟨_, _, _, rfl, by simp, by simp⟩
    | nil =>
      cases he : (k w.ext).1.2 with
      | some e =>
        refine ⟨(none, some Error.ErrCreateConnFail), ⟨some ⟨cap, []⟩, some k⟩,
          ⟨(k w.ext).2, w.log ++ [Event.construct]⟩, ?_, by simp, by simp⟩
        simp only [QueuePool.Get, callConstructor, he]
      | none =>
        refine ⟨((k w.ext).1.1, none), ⟨some ⟨cap, []⟩, some k⟩,
          ⟨(k w.ext).2, w.log ++ [Event.construct]⟩, ?_, by simp, fun _ => hk w.ext he⟩
        simp only [QueuePool.Get, callConstructor, he]

/-- C19: if the constructor never returns a nil connection together with a nil
error, then in the state after every finite sequence of calls on a pool
returned by `NewQueuePool` every buffered connection is non-nil and the pool is
closed exactly when the sequence contains a `Close`; the next `Get` returns,
with `ErrPoolConnClosed` exactly when the pool has been closed, and with a
non-nil connection whenever its error is nil. -/
theorem buffered_non_nil (connClose : ConnClose σ C E) (lim : Limits)
    (initConn maxConns : Int)
    (k : Constructor σ C E) (w w0 : World σ C) (qp : QueuePool σ C E)
    (err : Option (Error E)) (hk : ∀ s, (k s).1.2 = none → (k s).1.1 ≠ none)
    (hnew : NewQueuePool lim initConn maxConns (some k) w =
      Outcome.returns ((some qp, err), w0))
    (ops : List (Op C)) (rs : List (Ret C E)) (qp1 : QueuePool σ C E) (w1 : World σ C)
    (hrun : run connClose ops qp w0 = Outcome.returns (rs, qp1, w1)) :
    (∀ ch, qp1.connsQueue = some ch → ∀ x ∈ ch.buf, x ≠ none)
      ∧ (qp1.connsQueue = none ↔ Op.close ∈ ops)
      ∧ ∃ r qp2 w2, QueuePool.Get qp1 w1 = Outcome.returns (r, qp2, w2)
          ∧ (r.2 = some Error.ErrPoolConnClosed ↔ Op.close ∈ ops)
          ∧ (r.2 = none → r.1 ≠ none) := by
  obtain ⟨hinv, hcon, hopen⟩ := NewQueuePool_noNil lim initConn maxConns k hk w w0 qp err hnew
  obtain ⟨h1, h2, h3⟩ := run_noNil connClose ops qp qp1 w0 w1 rs hrun hinv
  have hclosed : qp1.connsQueue = none ↔ Op.close ∈ ops := by
    rw [h3]
    simp [hopen]
  obtain ⟨r, qp2, w2, hg, hr1, hr2⟩ := Get_noNil k hk qp1 w1 h1 (h2.trans hcon)
  exact ⟨h1, hclosed, r, qp2, w2, hg, hr1.trans hclosed, hr2⟩

/-- Witness for C19: a pool built with one connection, emptied by two `Get`
calls (the second one constructs) and refilled by a `Put`. -/
theorem buffered_non_nil_witness :
    (∀ ch, (⟨some ⟨2, [some 9]⟩, some freshConn⟩ : QueuePool Nat Nat Nat).connsQueue = some ch →
        ∀ x ∈ ch.buf, x ≠ none)
      ∧ ((⟨some ⟨2, [some 9]⟩, some freshConn⟩ : QueuePool Nat Nat Nat).connsQueue = none ↔
          Op.close ∈ [Op.get, Op.get, Op.put (some 9)])
      ∧ ∃ r qp2 w2,
          QueuePool.Get (⟨some ⟨2, [some 9]⟩, some freshConn⟩ : QueuePool Nat Nat Nat)
              ⟨2, [Event.construct, Event.construct]⟩ = Outcome.returns (r, qp2, w2)
            ∧ (r.2 = some Error.ErrPoolConnClosed ↔
                Op.close ∈ [Op.get, Op.get, Op.put (some 9)])
            ∧ (r.2 = none → r.1 ≠ none) :=
  buffered_non_nil oddCloseFails limits64 1 2 freshConn ⟨0, []⟩ ⟨1, [Event.construct]⟩
    ⟨some ⟨2, [some 0]⟩, some freshConn⟩ none (fun _ _ => by simp [freshConn]) rfl
    [Op.get, Op.get, Op.put (some 9)]
    [Ret.got (some 0) none, Ret.got (some 1) none, Ret.putRet none]
    ⟨some ⟨2, [some 9]⟩, some freshConn⟩ ⟨2, [Event.construct, Event.construct]⟩ rfl

theorem run_gets_entries (connClose : ConnClose σ C E) (old rest : List (Option C))
    (cap : Nat) (ko : Option (Constructor σ C E)) (w : World σ C) :
    run connClose (List.replicate old.length Op.get) ⟨some ⟨cap, old ++ rest⟩, ko⟩ w =
      Outcome.returns (List.map gotOf old, ⟨some ⟨cap, rest⟩, ko⟩, w) := by
  induction old with
  | nil => simp [run]
  | cons x xs ih =>
    have hs : step connClose Op.get
        (⟨some ⟨cap, (x :: xs) ++ rest⟩, ko⟩ : QueuePool σ C E) w =
        Outcome.returns (gotOf x, ⟨some ⟨cap, xs ++ rest⟩, ko⟩, w) := by
      cases x <;> simp [step, QueuePool.Get, gotOf]
    rw [List.length_cons, List.replicate_succ,
      run_cons_of_step connClose _ _ _ _ _ _ _ _ _ _ hs ih]
    rfl

/-- C20: release makes no identity check.  On an open pool with at least two
free slots, two `Close()` calls on a usable wrapper around the non-nil
connection `c`, like two calls `Put(c)`, both return nil, leave the world
untouched (`c.Close()` is not called) and buffer `c` twice at the tail, so that
`Len()` grows by two.  Once the entries buffered before have been dequeued, two
`Get` calls both return `c`; and a pool `Close()` in the state with `c`
buffered twice calls `c.Close()` twice. -/
theorem double_release (connClose : ConnClose σ C E) (c : C) (a cap : Nat)
    (old : List (Option C)) (ko : Option (Constructor σ C E))
    (pools : Nat → QueuePool σ C E) (w : World σ C)
    (hpool : pools a = ⟨some ⟨cap, old⟩, ko⟩) (hroom : old.length + 2 ≤ cap) :
    ReusableConn.Close connClose (ReusableConn.SetUsable (NewReusableConn (some c) (some a)))
        pools w =
        Outcome.returns (none,
          Function.update pools a ⟨some ⟨cap, old ++ [some c]⟩, ko⟩, w)
      ∧ ReusableConn.Close connClose
          (ReusableConn.SetUsable (NewReusableConn (some c) (some a)))
          (Function.update pools a ⟨some ⟨cap, old ++ [some c]⟩, ko⟩) w =
        Outcome.returns (none,
          Function.update pools a ⟨some ⟨cap, old ++ [some c, some c]⟩, ko⟩, w)
      ∧ run connClose [Op.put (some c), Op.put (some c)] ⟨some ⟨cap, old⟩, ko⟩ w =
        Outcome.returns ([Ret.putRet none, Ret.putRet none],
          ⟨some ⟨cap, old ++ [some c, some c]⟩, ko⟩, w)
      ∧ QueuePool.Len (⟨some ⟨cap, old ++ [some c, some c]⟩, ko⟩ : QueuePool σ C E)
          = QueuePool.Len (pools a) + 2
      ∧ run connClose (List.replicate old.length Op.get ++ [Op.get, Op.get])
          ⟨some ⟨cap, old ++ [some c, some c]⟩, ko⟩ w =
        Outcome.returns
          (List.map gotOf old ++ [Ret.got (some c) none, Ret.got (some c) none],
            ⟨some ⟨cap, []⟩, ko⟩, w)
      ∧ ∀ cs : List C, old = List.map some cs →
          QueuePool.Close connClose ⟨some ⟨cap, old ++ [some c, some c]⟩, ko⟩ w =
            Outcome.returns
              (aggregate (List.filterMap id (closeResults connClose (cs ++ [c, c]) w.ext)),
                ⟨none, ko⟩,
                ⟨closeState connClose (cs ++ [c, c]) w.ext,
                  w.log ++ (List.map Event.close cs ++ [Event.close c, Event.close c])⟩) := by
  have h1 : QueuePool.Put connClose ⟨some ⟨cap, old⟩, ko⟩ (some c) w =
      (none, ⟨some ⟨cap, old ++ [some c]⟩, ko⟩, w) :=
    Put_room connClose c cap old ko w (by omega)
  have h2 : QueuePool.Put connClose ⟨some ⟨cap, old ++ [some c]⟩, ko⟩ (some c) w =
      (none, ⟨some ⟨cap, old ++ [some c, some c]⟩, ko⟩, w) := by
    rw [Put_room connClose c cap (old ++ [some c]) ko w (by simp; omega)]
    simp
  refine ⟨?_, ?_, ?_, ?_, ?_, ?_⟩
  · show ReusableConn.Close connClose ⟨some c, some a, true⟩ pools w = _
    rw [ReusableConn_Close_release, hpool, h1]
  · show ReusableConn.Close connClose ⟨some c, some a, true⟩ _ w = _
    rw [ReusableConn_Close_release, Function.update_same, h2, Function.update_idem]
  · have hrun := run_puts_room connClose [c, c] cap old ko w (by simpa using hroom)
    simpa using hrun
  · rw [hpool]
    simp [QueuePool.Len]
  · have hg1 := run_gets_entries connClose old [some c, some c] cap ko w
    have hg2 := run_gets_buffered connClose [c, c] cap [] ko w
    have hg := run_append connClose _ _ _ _ _ _ _ _ _ _ hg1 hg2
    simpa using hg
  · intro cs hcs
    have hc := Close_open connClose (cs ++ [c, c]) cap ko w
    rw [hcs]
    simpa using hc

/-- Witness for C20: connection 4 is released twice into an empty pool of
capacity 2 through a usable wrapper. -/
theorem double_release_witness :
    ReusableConn.Close oddCloseFails
        (ReusableConn.SetUsable (NewReusableConn (some 4) (some 0)))
        (Function.update (onePool ⟨some ⟨2, []⟩, some freshConn⟩) 0
          ⟨some ⟨2, [some 4]⟩, some freshConn⟩) ⟨0, []⟩ =
        Outcome.returns (none,
          Function.update (onePool ⟨some ⟨2, []⟩, some freshConn⟩) 0
            ⟨some ⟨2, [some 4, some 4]⟩, some freshConn⟩, ⟨0, []⟩)
      ∧ run oddCloseFails [Op.get, Op.get]
          (⟨some ⟨2, [some 4, some 4]⟩, some freshConn⟩ : QueuePool Nat Nat Nat) ⟨0, []⟩ =
        Outcome.returns ([Ret.got (some 4) none, Ret.got (some 4) none],
          ⟨some ⟨2, []⟩, some freshConn⟩, ⟨0, []⟩)
      ∧ QueuePool.Close oddCloseFails
          (⟨some ⟨2, [some 4, some 4]⟩, some freshConn⟩ : QueuePool Nat Nat Nat) ⟨0, []⟩ =
        Outcome.returns (none, ⟨none, some freshConn⟩, ⟨0, [Event.close 4, Event.close 4]⟩) :=
  ⟨(double_release oddCloseFails 4 0 2 [] (some freshConn)
      (onePool ⟨some ⟨2, []⟩, some freshConn⟩) ⟨0, []⟩ rfl (by decide)).2.1,
    (double_release oddCloseFails 4 0 2 [] (some freshConn)
      (onePool ⟨some ⟨2, []⟩, some freshConn⟩) ⟨0, []⟩ rfl (by decide)).2.2.2.2.1,
    (double_release oddCloseFails 4 0 2 [] (some freshConn)
      (onePool ⟨some ⟨2, []⟩, some freshConn⟩) ⟨0, []⟩ rfl (by decide)).2.2.2.2.2 [] rfl⟩

end

end Pool
